import Mathlib

/-!
# Leaf: channel RPC, task dispatcher and timer dispatcher

A shallow embedding of `chanrpc/chanrpc.go`, `go/go.go`, `timer/timer.go` and
`network/tcp_msg.go`.

Modelling conventions

* A Go channel is a record of its capacity, its buffer, the values of the
  goroutines parked in a blocking send (in arrival order) and its closed flag.
  Receivers are modelled by explicit `recv` steps.  A blocking send that meets a
  parked receiver parks its value, which the receiver's next `recv` takes; a
  non-blocking send is told whether a receiver is parked, and hands its value over
  directly if so.
* A function that may suspend the calling goroutine returns an `Outcome`:
  `returned` (with the result), `blocked` (the goroutine is parked inside a
  channel operation; the state is the one at the suspension point) or
  `panicked` (a panic left the function).
* User supplied functions are total outcome functions (`Except String _`,
  the error being the rendered panic value); calling one is recorded in a
  ghost `trace`, which is how "the function was (not) executed" is stated.
  User functions act on state disjoint from the library state.
* Machine integers are natural numbers; where the source computes in `uint32`
  or `uint16` the result is reduced modulo `2 ^ 32` or `2 ^ 16`.
-/

set_option linter.dupNamespace false

namespace Leaf

/-! ## Go channels -/

/-- Buffered Go channel `make(chan α, cap)`. -/
structure Chan (α : Type) where
  cap : Nat
  buf : List α
  sendq : List α
  closed : Bool

namespace Chan

variable {α : Type}

/-- The channel `make(chan α, l)`. -/
def make (α : Type) (l : Nat) : Chan α := ⟨l, [], [], false⟩

/-- Values in the order in which receivers will obtain them. -/
def pending (ch : Chan α) : List α := ch.buf ++ ch.sendq

/-- Result of the blocking send `ch <- v`. -/
inductive Send (α : Type) where
  | sent (ch : Chan α)
  | parked (ch : Chan α)
  | panic

/-- Blocking send `ch <- v`: panics on a closed channel, completes when the
buffer has room, parks the sender otherwise. -/
def send (ch : Chan α) (v : α) : Send α :=
  if ch.closed then .panic
  else if ch.buf.length < ch.cap then .sent { ch with buf := ch.buf ++ [v] }
  else .parked { ch with sendq := ch.sendq ++ [v] }

/-- Result of `select { case ch <- v: default: }`: the value went into the buffer
(`sent`), went directly to a receiver parked on the channel (`handed`, the channel
itself is as before), the default branch was taken (`full`), or the send panicked. -/
inductive TrySend (α : Type) where
  | sent (ch : Chan α)
  | handed
  | full
  | panic

/-- Non-blocking send `select { case ch <- v: default: }`; `receiver` tells whether a
goroutine is parked in a receive on the channel.  In the order of the runtime: a
closed channel panics; a parked receiver is handed the value, whatever the capacity
(this is the only way a send on an unbuffered channel succeeds); else the value goes
into the buffer when it has room; else the default branch is taken. -/
def trySend (ch : Chan α) (v : α) (receiver : Bool) : TrySend α :=
  if ch.closed then .panic
  else if receiver then .handed
  else if ch.buf.length < ch.cap then .sent { ch with buf := ch.buf ++ [v] }
  else .full

/-- Result of the receive `<-ch`. -/
inductive Recv (α : Type) where
  | value (v : α) (ch : Chan α)
  | empty
  | closed

/-- Receive `<-ch`: takes the oldest value; a parked sender, if any, moves its
value into the freed buffer slot (or hands it over directly when the channel
is unbuffered). -/
def recv (ch : Chan α) : Recv α :=
  match ch.buf, ch.sendq with
  | v :: rest, [] => .value v { ch with buf := rest }
  | v :: rest, s :: ss => .value v { ch with buf := rest ++ [s], sendq := ss }
  | [], s :: ss => .value s { ch with sendq := ss }
  | [], [] => if ch.closed then .closed else .empty

/-- The builtin `close(ch)`: `none` is the panic on an already closed channel;
parked senders are woken with a panic, their values are discarded. -/
def close (ch : Chan α) : Option (Chan α) :=
  if ch.closed then none else some { ch with closed := true, sendq := [] }

end Chan

/-- Outcome of a call that may suspend or panic. -/
inductive Outcome (σ ρ : Type) where
  | returned (s : σ) (r : ρ)
  | blocked (s : σ)
  | panicked (s : σ) (r : String)

/-- The state an outcome leaves behind. -/
def Outcome.state {σ ρ : Type} : Outcome σ ρ → σ
  | .returned s _ => s
  | .blocked s => s
  | .panicked s _ => s

/-- Package `conf` is not part of the sources: `LenStackBuf` is its variable,
`stack` stands for what `runtime.Stack` writes into the buffer. -/
structure Conf where
  LenStackBuf : Int
  stack : String

/-! ## chanrpc: data model -/

/-- Dynamic values (`interface{}`) that are plain data. -/
inductive Val where
  | nil : Val
  | int : Int → Val
  | str : String → Val
  | slice : List Val → Val

/-- The three function shapes a Server accepts:
`func([]interface{})`, `func([]interface{}) interface{}`,
`func([]interface{}) []interface{}`. -/
inductive Fn where
  | f0 (body : List Val → Except String Unit)
  | f1 (body : List Val → Except String Val)
  | fN (body : List Val → Except String (List Val))

/-- A dynamic value handed to `Register`: one of the three shapes or anything else
(including the nil interface). -/
inductive Dyn where
  | fn (f : Fn)
  | other (v : Val)

/-- Error values produced by the package. -/
inductive Err (κ : Type) where
  | serverNotAttached
  | notRegistered (id : κ)
  | typeMismatch (id : κ)
  | channelFull
  | serverClosed
  | tooManyCalls
  | fault (r : String)
  | faultStack (r : String) (stack : String)
  | runtime (msg : String)

/-- The three callback shapes: `func(error)`, `func(interface{}, error)`,
`func([]interface{}, error)`. -/
inductive Callback (κ : Type) where
  | cb0 (body : Option (Err κ) → Except String Unit)
  | cb1 (body : Val → Option (Err κ) → Except String Unit)
  | cbN (body : List Val → Option (Err κ) → Except String Unit)

/-- Identity of a return channel (a `chan *RetInfo` reference). -/
abbrev ChanId := Nat

/-- Call Request: function, arguments, return channel (nil for fire-and-forget) and
the callback threaded through to the Result. -/
structure CallInfo (κ : Type) where
  f : Fn
  args : List Val
  chanRet : Option ChanId
  cb : Option (Callback κ)

/-- Result: `ret` is nil, a value or a slice of values; `err` the failure. -/
structure RetInfo (κ : Type) where
  ret : Val
  err : Option (Err κ)
  cb : Option (Callback κ)

/-- Server: function table (absent keys map to nil) and mailbox. -/
structure Server (κ : Type) where
  functions : κ → Option Fn
  ChanCall : Chan (CallInfo κ)

/-- Client handle; `s` tells whether a Server is attached. -/
structure Client where
  s : Bool
  chanSyncRet : ChanId
  ChanAsynRet : ChanId
  pendingAsynCall : Int

/-- Ghost events. -/
inductive Event (κ : Type) where
  | call (f : Fn) (args : List Val)
  | cb0 (cb : Callback κ) (err : Option (Err κ))
  | cb1 (cb : Callback κ) (ret : Val) (err : Option (Err κ))
  | cbN (cb : Callback κ) (ret : List Val) (err : Option (Err κ))
  | logError (e : Err κ)

/-- Where the goroutine that owns the Server stands with respect to the mailbox:
`away` (not in a receive), `waiting` (parked in `<-s.ChanCall`), or `handed ci` (a
non-blocking send gave the request `ci` directly to the parked receive; the goroutine
is runnable and `Exec(ci)` is what it does next). -/
inductive Receiver (κ : Type) where
  | away
  | waiting
  | handed (ci : CallInfo κ)

/-- One Server, the goroutine receiving from its mailbox, the return channels of
its Clients, and the ghost trace. -/
structure World (κ : Type) where
  srv : Server κ
  chans : ChanId → Chan (RetInfo κ)
  trace : List (Event κ)
  receiver : Receiver κ := .away

variable {κ : Type}

/-- The request handed to the receiving goroutine and not yet executed, if any. -/
def Receiver.inHand : Receiver κ → List (CallInfo κ)
  | .handed ci => [ci]
  | _ => []

def World.setReceiver (w : World κ) (r : Receiver κ) : World κ :=
  { w with receiver := r }

/-- Whether a non-blocking send on the mailbox finds the Server parked in its
receive: the goroutine is waiting and nothing has reached the mailbox since (a value
left there by a blocking send is what the receive returns with). -/
def World.serverParked (w : World κ) : Bool :=
  match w.receiver with
  | .waiting => w.srv.ChanCall.buf.isEmpty && w.srv.ChanCall.sendq.isEmpty
  | _ => false

/-- The requests the Server holds, oldest first: the one handed to its receive, if
any, and those in the mailbox buffer. -/
def World.held (w : World κ) : List (CallInfo κ) :=
  w.receiver.inHand ++ w.srv.ChanCall.buf

def World.setChan (w : World κ) (c : ChanId) (ch : Chan (RetInfo κ)) : World κ :=
  { w with chans := fun i => if i = c then ch else w.chans i }

def World.setCall (w : World κ) (ch : Chan (CallInfo κ)) : World κ :=
  { w with srv := { w.srv with ChanCall := ch } }

def World.emit (w : World κ) (e : Event κ) : World κ :=
  { w with trace := w.trace ++ [e] }

/-! ## chanrpc: operations -/

def NewServer (κ : Type) (l : Nat) : Server κ :=
  { functions := fun _ => none, ChanCall := Chan.make (CallInfo κ) l }

/-- The helper `assert`: `none` is the failed type assertion. -/
def assert : Val → Option (List Val)
  | .nil => some []
  | .slice vs => some vs
  | _ => none

/-- Panic messages of `Register`. -/
inductive RegisterPanic (κ : Type) where
  | invalidDefinition (id : κ)
  | alreadyRegistered (id : κ)

/-- Register: the second component is the panic raised, if any; the first is the
Server as the call leaves it. -/
def Server.Register [DecidableEq κ] (s : Server κ) (id : κ) (f : Dyn) :
    Server κ × Option (RegisterPanic κ) :=
  match f with
  | .other _ => (s, some (.invalidDefinition id))
  | .fn fn =>
    if (s.functions id).isSome then (s, some (.alreadyRegistered id))
    else ({ s with functions := fun k => if k = id then some fn else s.functions k }, none)

/-- `ret`: nothing to do without return channel; otherwise copies the callback into
the Result and sends it; the panic of a send on a closed channel is recovered into
the returned error. -/
def Server.ret (w : World κ) (ci : CallInfo κ) (ri : RetInfo κ) :
    Outcome (World κ) (Option (Err κ)) :=
  match ci.chanRet with
  | none => .returned w none
  | some c =>
    match (w.chans c).send { ri with cb := ci.cb } with
    | .sent ch => .returned (w.setChan c ch) none
    | .parked ch => .blocked (w.setChan c ch)
    | .panic => .returned w (some (.runtime "send on closed channel"))

/-- The deferred recovery of `exec`: builds the returned error and reports the
fault through `ret`, whose own result is dropped. -/
def Server.execRecover (cfg : Conf) (w : World κ) (ci : CallInfo κ) (r : String) :
    Outcome (World κ) (Option (Err κ)) :=
  let err : Err κ := if cfg.LenStackBuf > 0 then .faultStack r cfg.stack else .fault r
  match Server.ret w ci { ret := .nil, err := some (.fault r), cb := none } with
  | .returned w1 _ => .returned w1 (some err)
  | .blocked w1 => .blocked w1
  | .panicked w1 p => .panicked w1 p

/-- `exec`: calls the function by shape and hands its result to `ret`; a fault of the
function goes to the deferred recovery.  (`Fn` has only the three shapes, so the
final `panic("bug")` has no case.) -/
def Server.exec (cfg : Conf) (w : World κ) (ci : CallInfo κ) :
    Outcome (World κ) (Option (Err κ)) :=
  let w1 := w.emit (.call ci.f ci.args)
  match ci.f with
  | .f0 body =>
    match body ci.args with
    | .ok _ => Server.ret w1 ci { ret := .nil, err := none, cb := none }
    | .error r => Server.execRecover cfg w1 ci r
  | .f1 body =>
    match body ci.args with
    | .ok ret => Server.ret w1 ci { ret := ret, err := none, cb := none }
    | .error r => Server.execRecover cfg w1 ci r
  | .fN body =>
    match body ci.args with
    | .ok ret => Server.ret w1 ci { ret := .slice ret, err := none, cb := none }
    | .error r => Server.execRecover cfg w1 ci r

/-- `Exec`: runs `exec` and logs its error. -/
def Server.Exec (cfg : Conf) (w : World κ) (ci : CallInfo κ) : Outcome (World κ) Unit :=
  match Server.exec cfg w ci with
  | .returned w1 none => .returned w1 ()
  | .returned w1 (some err) => .returned (w1.emit (.logError err)) ()
  | .blocked w1 => .blocked w1
  | .panicked w1 p => .panicked w1 p

/-- `Go`: silent return for an unknown key; otherwise a blocking send of the
request, the panic of a closed mailbox being recovered and dropped. -/
def Server.Go (w : World κ) (id : κ) (args : List Val) : Outcome (World κ) Unit :=
  match w.srv.functions id with
  | none => .returned w ()
  | some f =>
    match w.srv.ChanCall.send { f := f, args := args, chanRet := none, cb := none } with
    | .sent ch => .returned (w.setCall ch) ()
    | .parked ch => .blocked (w.setCall ch)
    | .panic => .returned w ()

/-- Drain loop of `Close`: `for ci := range s.ChanCall { s.ret(ci, ...) }` over the
buffered requests of the closed mailbox. -/
def Server.drain (w : World κ) : List (CallInfo κ) → Outcome (World κ) Unit
  | [] => .returned w ()
  | ci :: rest =>
    let w0 := w.setCall { w.srv.ChanCall with buf := rest }
    match Server.ret w0 ci { ret := .nil, err := some .serverClosed, cb := none } with
    | .returned w1 _ => Server.drain w1 rest
    | .blocked w1 => .blocked w1
    | .panicked w1 p => .panicked w1 p

def Server.Close (w : World κ) : Outcome (World κ) Unit :=
  match w.srv.ChanCall.close with
  | none => .panicked w "close of closed channel"
  | some ch => Server.drain (w.setCall ch) ch.buf

/-- `NewClient(l)`: `sync` and `asyn` name the two channels it makes. -/
def NewClient (w : World κ) (sync asyn : ChanId) (l : Nat) : World κ × Client :=
  ((w.setChan sync (Chan.make _ 1)).setChan asyn (Chan.make _ l),
   { s := false, chanSyncRet := sync, ChanAsynRet := asyn, pendingAsynCall := 0 })

def Client.Attach (c : Client) : Client := { c with s := true }

def Server.Open (w : World κ) (sync asyn : ChanId) (l : Nat) : World κ × Client :=
  let p := NewClient w sync asyn l
  (p.1, p.2.Attach)

/-- `call`: blocking send, or `select` with `default`; any panic (nil Server, closed
mailbox) is recovered into the returned error.  The `select` succeeds when the
mailbox has room or when the Server is parked in its receive, which then holds the
request. -/
def Client.call (w : World κ) (c : Client) (ci : CallInfo κ) (block : Bool) :
    Outcome (World κ) (Option (Err κ)) :=
  if !c.s then .returned w (some (.runtime "invalid memory address or nil pointer dereference"))
  else if block then
    match w.srv.ChanCall.send ci with
    | .sent ch => .returned (w.setCall ch) none
    | .parked ch => .blocked (w.setCall ch)
    | .panic => .returned w (some (.runtime "send on closed channel"))
  else
    match w.srv.ChanCall.trySend ci w.serverParked with
    | .sent ch => .returned (w.setCall ch) none
    | .handed => .returned (w.setReceiver (.handed ci)) none
    | .full => .returned w (some .channelFull)
    | .panic => .returned w (some (.runtime "send on closed channel"))

/-- Result pair `(f, err)` of `Client.f`; `bug` is its `panic("bug")`. -/
inductive Lookup (κ : Type) where
  | found (f : Fn)
  | failed (f : Option Fn) (err : Err κ)
  | bug

def Client.f (w : World κ) (c : Client) (id : κ) (n : Nat) : Lookup κ :=
  if !c.s then .failed none .serverNotAttached
  else
    match w.srv.functions id with
    | none => .failed none (.notRegistered id)
    | some f =>
      match n, f with
      | 0, .f0 _ => .found f
      | 1, .f1 _ => .found f
      | 2, .fN _ => .found f
      | 0, _ => .failed (some f) (.typeMismatch id)
      | 1, _ => .failed (some f) (.typeMismatch id)
      | 2, _ => .failed (some f) (.typeMismatch id)
      | _, _ => .bug

/-- First half of a blocking call (`Call0`, `Call1`, `CallN` with `n = 0, 1, 2`):
lookup and blocking send.  `returned _ (some err)` is the early `return err`;
`returned _ none` continues with the receive on the synchronous slot. -/
def Client.callSend (w : World κ) (c : Client) (id : κ) (args : List Val) (n : Nat) :
    Outcome (World κ) (Option (Err κ)) :=
  match Client.f w c id n with
  | .bug => .panicked w "bug"
  | .failed _ err => .returned w (some err)
  | .found f =>
    Client.call w c { f := f, args := args, chanRet := some c.chanSyncRet, cb := none } true

/-- Second half of a blocking call: `ri := <-c.chanSyncRet`. -/
def Client.callRecv (w : World κ) (c : Client) : Outcome (World κ) (RetInfo κ) :=
  match (w.chans c.chanSyncRet).recv with
  | .value ri ch => .returned (w.setChan c.chanSyncRet ch) ri
  | .empty => .blocked w
  | .closed => .panicked w "invalid memory address or nil pointer dereference"

def Client.Call0_send (w : World κ) (c : Client) (id : κ) (args : List Val) :=
  Client.callSend w c id args 0

def Client.Call0_recv (w : World κ) (c : Client) : Outcome (World κ) (Option (Err κ)) :=
  match Client.callRecv w c with
  | .returned w1 ri => .returned w1 ri.err
  | .blocked w1 => .blocked w1
  | .panicked w1 p => .panicked w1 p

def Client.Call1_send (w : World κ) (c : Client) (id : κ) (args : List Val) :=
  Client.callSend w c id args 1

def Client.Call1_recv (w : World κ) (c : Client) : Outcome (World κ) (Val × Option (Err κ)) :=
  match Client.callRecv w c with
  | .returned w1 ri => .returned w1 (ri.ret, ri.err)
  | .blocked w1 => .blocked w1
  | .panicked w1 p => .panicked w1 p

def Client.CallN_send (w : World κ) (c : Client) (id : κ) (args : List Val) :=
  Client.callSend w c id args 2

def Client.CallN_recv (w : World κ) (c : Client) :
    Outcome (World κ) (List Val × Option (Err κ)) :=
  match Client.callRecv w c with
  | .returned w1 ri =>
    match assert ri.ret with
    | some vs => .returned w1 (vs, ri.err)
    | none => .panicked w1 "interface conversion"
  | .blocked w1 => .blocked w1
  | .panicked w1 p => .panicked w1 p

/-- What the deferred recovery of `execCb` logs for the panic value `r`. -/
def logFault (cfg : Conf) (w : World κ) (r : String) : World κ :=
  w.emit (.logError (if cfg.LenStackBuf > 0 then .faultStack r cfg.stack else .fault r))

/-- Runs the callback carried by a Result; a fault of the callback (or the
`panic("bug")` of an unknown shape, or the failed `assert`) is recovered and logged. -/
def execCb (cfg : Conf) (w : World κ) (ri : RetInfo κ) : World κ :=
  match ri.cb with
  | some (.cb0 body) =>
    match body ri.err with
    | .ok _ => w.emit (.cb0 (.cb0 body) ri.err)
    | .error r => logFault cfg (w.emit (.cb0 (.cb0 body) ri.err)) r
  | some (.cb1 body) =>
    match body ri.ret ri.err with
    | .ok _ => w.emit (.cb1 (.cb1 body) ri.ret ri.err)
    | .error r => logFault cfg (w.emit (.cb1 (.cb1 body) ri.ret ri.err)) r
  | some (.cbN body) =>
    match assert ri.ret with
    | none => logFault cfg w "interface conversion"
    | some vs =>
      match body vs ri.err with
      | .ok _ => w.emit (.cbN (.cbN body) vs ri.err)
      | .error r => logFault cfg (w.emit (.cbN (.cbN body) vs ri.err)) r
  | none => logFault cfg w "bug"

/-- The local delivery `c.ChanAsynRet <- &RetInfo{err: err, cb: cb}` of `asynCall`. -/
def Client.deliverLocal (w : World κ) (c : Client) (err : Err κ) (cb : Callback κ) :
    Outcome (World κ) Unit :=
  match (w.chans c.ChanAsynRet).send { ret := .nil, err := some err, cb := some cb } with
  | .sent ch => .returned (w.setChan c.ChanAsynRet ch) ()
  | .parked ch => .blocked (w.setChan c.ChanAsynRet ch)
  | .panic => .panicked w "send on closed channel"

def Client.asynCall (w : World κ) (c : Client) (id : κ) (args : List Val)
    (cb : Callback κ) (n : Nat) : Outcome (World κ) Unit :=
  match Client.f w c id n with
  | .bug => .panicked w "bug"
  | .failed _ err => Client.deliverLocal w c err cb
  | .found f =>
    match Client.call w c
        { f := f, args := args, chanRet := some c.ChanAsynRet, cb := some cb } false with
    | .returned w1 none => .returned w1 ()
    | .returned w1 (some err) => Client.deliverLocal w1 c err cb
    | .blocked w1 => .blocked w1
    | .panicked w1 p => .panicked w1 p

/-- The arity tag `n` that `AsynCall` derives from the callback shape. -/
def Callback.arity : Callback κ → Nat
  | .cb0 _ => 0
  | .cb1 _ => 1
  | .cbN _ => 2

/-- `AsynCall(id, _args...)`.  The variadic list is `args` followed by `last`;
`last = none` stands for the empty variadic list, `some (.inr v)` for a trailing
value that is not a callback of one of the three shapes. -/
def Client.AsynCall (cfg : Conf) (w : World κ) (c : Client) (id : κ) (args : List Val)
    (last : Option (Callback κ ⊕ Val)) : Outcome (World κ × Client) Unit :=
  match last with
  | none => .panicked (w, c) "callback function not found"
  | some (.inr _) => .panicked (w, c) "definition of callback function is invalid"
  | some (.inl cb) =>
    if c.pendingAsynCall ≥ ((w.chans c.ChanAsynRet).cap : Int) then
      .returned (execCb cfg w { ret := .nil, err := some .tooManyCalls, cb := some cb }, c) ()
    else
      match Client.asynCall w c id args cb cb.arity with
      | .returned w1 _ => .returned (w1, { c with pendingAsynCall := c.pendingAsynCall + 1 }) ()
      | .blocked w1 => .blocked (w1, c)
      | .panicked w1 p => .panicked (w1, c) p

def Client.Cb (cfg : Conf) (w : World κ) (c : Client) (ri : RetInfo κ) : World κ × Client :=
  (execCb cfg w ri, { c with pendingAsynCall := c.pendingAsynCall - 1 })

def Client.Idle (c : Client) : Bool := c.pendingAsynCall == 0

/-- Shape tag of a registered function: the `n` under which `Client.f` accepts it. -/
def Fn.arity : Fn → Nat
  | .f0 _ => 0
  | .f1 _ => 1
  | .fN _ => 2

/-- Outcome of calling a registered function, as the dynamic value `exec` puts in
the Result. -/
def Fn.call : Fn → List Val → Except String Val
  | .f0 body, args => (body args).map fun _ => Val.nil
  | .f1 body, args => body args
  | .fN body, args => (body args).map Val.slice

/-- The requests of a list whose return channel is `c`. -/
def addressed (c : ChanId) (reqs : List (CallInfo κ)) : List (CallInfo κ) :=
  reqs.filter fun ci => decide (ci.chanRet = some c)

/-- The Result `Close` sends for a drained request. -/
def closedResult (ci : CallInfo κ) : RetInfo κ :=
  { ret := .nil, err := some .serverClosed, cb := ci.cb }

/-- The event of calling `cb` with a nil value and the failure `err`. -/
def Callback.nilEvent (cb : Callback κ) (err : Err κ) : Event κ :=
  match cb with
  | .cb0 _ => .cb0 cb (some err)
  | .cb1 _ => .cb1 cb .nil (some err)
  | .cbN _ => .cbN cb [] (some err)

/-! ### Concrete instances -/

namespace Demo

def cfg : Conf := { LenStackBuf := 0, stack := "" }

def answer : List Val → Except String Val := fun _ => .ok (.int 42)

def boom : List Val → Except String Val := fun _ => .error "boom"

def unitFn : List Val → Except String Unit := fun _ => .ok ()

/-- A Server with mailbox capacity 1 on which key 7 is a single-result function,
key 8 a no-result function and key 9 a faulting single-result function. -/
def world : World Nat :=
  { srv :=
      { functions := fun k =>
          if k = 7 then some (.f1 answer) else if k = 8 then some (.f0 unitFn)
          else if k = 9 then some (.f1 boom) else none
        ChanCall := Chan.make _ 1 }
    chans := fun _ => Chan.make _ 1
    trace := [] }

def client : Client := { s := true, chanSyncRet := 0, ChanAsynRet := 1, pendingAsynCall := 0 }

def request : CallInfo Nat := { f := .f1 answer, args := [], chanRet := none, cb := none }

/-- A mailbox holding a fire-and-forget request and two requests whose Results go to
channel 1, which has capacity 2. -/
def closing : World Nat :=
  { srv :=
      { functions := world.srv.functions
        ChanCall :=
          { cap := 3
            buf := [{ request with chanRet := some 1 }, request,
              { request with chanRet := some 1 }]
            sendq := []
            closed := false } }
    chans := fun _ => Chan.make _ 2
    trace := [] }

/-- A Client of the demo Server with one asynchronous call in flight and an
asynchronous-return queue of capacity 1. -/
def busyClient : Client :=
  { s := true, chanSyncRet := 0, ChanAsynRet := 1, pendingAsynCall := 1 }

def faultyCb : Callback Nat := .cb0 fun _ => .error "callback fault"

end Demo

/-! ## go: task dispatcher -/

/-- A Go `func()` value (possibly the nil function value, whose call faults): an
opaque closure identified by `tag`; a call returns normally (`fault = none`) or
panics with the given value. -/
structure Func where
  tag : Nat
  fault : Option String
  deriving DecidableEq, Repr

/-- Ghost events of the task and timer dispatchers: a user function was called; a
recovered panic was logged (with the stack when stack capture is configured). -/
inductive Ev where
  | ran (f : Func)
  | logError (r : String) (stack : Option String)
  deriving DecidableEq, Repr

/-- What the deferred recovery logs after calling `f`: nothing when `f` returned. -/
def recoverLog (cfg : Conf) (f : Func) : List Ev :=
  match f.fault with
  | none => []
  | some r => [.logError r (if cfg.LenStackBuf > 0 then some cfg.stack else none)]

structure Go where
  ChanCb : Chan (Option Func)
  pendingGo : Int

def New (l : Nat) : Go := { ChanCb := Chan.make _ l, pendingGo := 0 }

/-- A dispatcher, the goroutines started by `Go` whose body has not run yet (work
and callback), and the ghost trace. -/
structure GoWorld where
  g : Go
  tasks : List (Func × Option Func)
  trace : List Ev

/-- `Go(f, cb)`: counts the task and starts its goroutine. -/
def Go.Go (w : GoWorld) (f : Func) (cb : Option Func) : GoWorld :=
  { w with g := { w.g with pendingGo := w.g.pendingGo + 1 }, tasks := w.tasks ++ [(f, cb)] }

/-- Body of the goroutine started for `tasks[i]`: calls `f`; the deferred function
sends `cb` on `ChanCb` and then recovers and logs a fault of `f`.  A panic of the
send itself (closed channel) is not recovered. -/
def Go.work (cfg : Conf) (w : GoWorld) (i : Nat) : Outcome GoWorld Unit :=
  match w.tasks[i]? with
  | none => .returned w ()
  | some (f, cb) =>
    let w1 : GoWorld := { w with tasks := w.tasks.eraseIdx i, trace := w.trace ++ [.ran f] }
    match w1.g.ChanCb.send cb with
    | .sent ch =>
      .returned { w1 with g := { w1.g with ChanCb := ch },
                          trace := w1.trace ++ recoverLog cfg f } ()
    | .parked ch => .blocked { w1 with g := { w1.g with ChanCb := ch } }
    | .panic => .panicked w1 "send on closed channel"

/-- Rest of the goroutine body once a parked send of the deferred function has
completed: recover and log. -/
def Go.resume (cfg : Conf) (w : GoWorld) (f : Func) : GoWorld :=
  { w with trace := w.trace ++ recoverLog cfg f }

def Go.Idle (g : Leaf.Go) : Bool := g.pendingGo == 0

structure LinearGo where
  f : Func
  cb : Option Func
  deriving DecidableEq, Repr

/-- A `LinearContext` with its dispatcher.  `waiting` are the goroutines started by
`LinearContext.Go` that have not yet acquired `mutexExecution` (named by submission
number, `spawned` being the next number); `parked` is the work function of the
goroutine that holds `mutexExecution` while parked in the send on `ChanCb`;
`received` lists what the owner has taken from `ChanCb`; `crashed` records an
unrecovered panic of a goroutine. -/
structure LinearWorld where
  g : Go
  linearGo : List LinearGo
  waiting : List Nat
  spawned : Nat
  parked : Option Func
  received : List (Option Func)
  crashed : Bool
  trace : List Ev

def Go.NewLinearContext (g : Leaf.Go) : LinearWorld :=
  { g := g, linearGo := [], waiting := [], spawned := 0, parked := none, received := [],
    crashed := false, trace := [] }

/-- `LinearContext.Go(f, cb)` up to the start of the goroutine. -/
def LinearContext.Go (w : LinearWorld) (f : Func) (cb : Option Func) : LinearWorld :=
  { w with
    g := { w.g with pendingGo := w.g.pendingGo + 1 }
    linearGo := w.linearGo ++ [{ f := f, cb := cb }]
    waiting := w.waiting ++ [w.spawned]
    spawned := w.spawned + 1 }

/-- Body of a goroutine of `LinearContext.Go` from the moment it holds
`mutexExecution`: removes the front entry (a panic when there is none), calls its
work, sends its callback, recovers and logs, and releases the lock; a parked send
keeps the lock. -/
def LinearContext.worker (cfg : Conf) (w : LinearWorld) : LinearWorld :=
  match w.linearGo with
  | [] => { w with crashed := true }
  | e :: rest =>
    let w1 : LinearWorld := { w with linearGo := rest, trace := w.trace ++ [.ran e.f] }
    match w1.g.ChanCb.send e.cb with
    | .sent ch =>
      { w1 with g := { w1.g with ChanCb := ch }, trace := w1.trace ++ recoverLog cfg e.f }
    | .parked ch => { w1 with g := { w1.g with ChanCb := ch }, parked := some e.f }
    | .panic => { w1 with crashed := true }

/-- Scheduler choices: the owner submits a task; the goroutine of submission `i`
acquires `mutexExecution` and runs; the owner receives from `ChanCb`, which releases
the goroutine parked in the send, if any (it recovers, logs and unlocks). -/
inductive LinearStep where
  | submit (f : Func) (cb : Option Func)
  | work (i : Nat)
  | recv
  deriving DecidableEq, Repr

/-- One scheduling step; a step that is not enabled leaves the state as it is. -/
def LinearContext.step (cfg : Conf) (w : LinearWorld) : LinearStep → LinearWorld
  | .submit f cb => if w.crashed then w else LinearContext.Go w f cb
  | .work i =>
    if w.crashed || w.parked.isSome || !(w.waiting.contains i) then w
    else LinearContext.worker cfg { w with waiting := w.waiting.erase i }
  | .recv =>
    if w.crashed then w
    else
      match w.g.ChanCb.recv with
      | .value cb ch =>
        match w.parked with
        | some f =>
          { w with g := { w.g with ChanCb := ch }, received := w.received ++ [cb],
                   parked := none, trace := w.trace ++ recoverLog cfg f }
        | none => { w with g := { w.g with ChanCb := ch }, received := w.received ++ [cb] }
      | _ => w

def LinearContext.run (cfg : Conf) (w : LinearWorld) (steps : List LinearStep) : LinearWorld :=
  steps.foldl (LinearContext.step cfg) w

/-- Callbacks in submission order. -/
def submissions : List LinearStep → List (Option Func)
  | [] => []
  | .submit _ cb :: rest => cb :: submissions rest
  | _ :: rest => submissions rest

/-- Everything sent on `ChanCb` so far, in order: what the owner has received and
what is pending in the channel. -/
def LinearWorld.enqueued (w : LinearWorld) : List (Option Func) :=
  w.received ++ w.g.ChanCb.pending

/-! ## timer -/

/-- Timer handle: `t` tells whether the wrapped runtime timer is still pending. -/
structure Timer where
  t : Bool
  cb : Option Func
  deriving DecidableEq, Repr

/-- The handle `AfterFunc(d, cb)` returns. -/
def Dispatcher.AfterFunc (cb : Option Func) : Timer := { t := true, cb := cb }

def Timer.Stop (t : Timer) : Timer := { t with t := false, cb := none }

/-- `Cb()`: calls the callback when there is one; the deferred function clears the
reference, recovers and logs. -/
def Timer.Cb (cfg : Conf) (t : Timer) (trace : List Ev) : Timer × List Ev :=
  match t.cb with
  | some f => ({ t with cb := none }, trace ++ [.ran f] ++ recoverLog cfg f)
  | none => ({ t with cb := none }, trace)

/-- Calls made on a handle. -/
inductive TimerOp where
  | Cb
  | Stop
  deriving DecidableEq, Repr

def Timer.apply (cfg : Conf) (s : Timer × List Ev) : TimerOp → Timer × List Ev
  | .Cb => Timer.Cb cfg s.1 s.2
  | .Stop => (Timer.Stop s.1, s.2)

def Timer.run (cfg : Conf) (s : Timer × List Ev) (ops : List TimerOp) : Timer × List Ev :=
  ops.foldl (Timer.apply cfg) s

/-- Number of calls of any user function recorded in a trace. -/
def allCalls (trace : List Ev) : Nat :=
  (trace.filter fun e => match e with | .ran _ => true | _ => false).length

/-- Callbacks in the order fixed so far: sent on `ChanCb`, then still queued. -/
def LinearWorld.order (w : LinearWorld) : List (Option Func) :=
  w.enqueued ++ w.linearGo.map fun e => e.cb

/-- The callback a step submits, if it is a submission. -/
def LinearStep.submitted : LinearStep → List (Option Func)
  | .submit _ cb => [cb]
  | _ => []

/-- State invariant of the ordered dispatcher: no goroutine has crashed, `ChanCb` is
open, there is one waiting goroutine per queued entry, and the only sender ever
parked on `ChanCb` is the goroutine holding `mutexExecution`. -/
def LinearWorld.Inv (w : LinearWorld) : Prop :=
  w.crashed = false ∧ w.g.ChanCb.closed = false ∧ w.waiting.length = w.linearGo.length ∧
  match w.parked with
  | none => w.g.ChanCb.sendq = []
  | some _ => ∃ s, w.g.ChanCb.sendq = [s]

namespace Demo

def work1 : Func := { tag := 1, fault := none }

def work2 : Func := { tag := 2, fault := some "task fault" }

def done1 : Func := { tag := 11, fault := none }

def done2 : Func := { tag := 12, fault := none }

/-- A dispatcher with a one-slot callback queue and two started tasks. -/
def goWorld : GoWorld :=
  Go.Go (Go.Go { g := New 1, tasks := [], trace := [] } work1 (some done1)) work2 none

/-- Three submissions whose goroutines acquire the lock in the order 2, 0, 1, the
owner receiving afterwards. -/
def schedule : List LinearStep :=
  [.submit work1 (some done1), .submit work2 (some done2), .submit work1 none,
   .work 2, .work 0, .recv, .work 1, .recv, .recv]

end Demo

/-! ## go: the owner side -/

/-- `Cb(cb)`.  A callback can inspect the dispatcher while it runs (through `Idle()`),
so it is given as a function of the dispatcher state in which it is invoked, `nil`
being `none`.  The body calls `cb` when it is not nil; the deferred function then
decrements the counter, recovers and logs. -/
def Go.Cb (cfg : Conf) (g : Leaf.Go) (trace : List Ev) (cb : Option (Leaf.Go → Func)) :
    Leaf.Go × List Ev :=
  match cb with
  | none => ({ g with pendingGo := g.pendingGo - 1 }, trace)
  | some c =>
    ({ g with pendingGo := g.pendingGo - 1 }, trace ++ .ran (c g) :: recoverLog cfg (c g))

namespace Demo

/-- A callback that calls `Idle()` and behaves as function 1 when the dispatcher is
idle, as function 0 otherwise. -/
def probe : Leaf.Go → Func := fun g => if g.Idle then { tag := 1, fault := none }
  else { tag := 0, fault := none }

/-- A dispatcher with one task outstanding. -/
def lastOne : Leaf.Go := { ChanCb := Chan.make _ 1, pendingGo := 1 }

end Demo

/-! ## chanrpc: one Client and its Server -/

/-- What can happen next between a Client and its Server: the Client issues an
asynchronous call; the goroutine of the Server executes the request it was handed,
or else receives from the mailbox, executing the request received or parking in the
receive when the mailbox is empty; the Server is closed; the owner of the Client
pulls a Result from the asynchronous-return queue and hands it to `Cb`. -/
inductive AsynStep (κ : Type) where
  | asynCall (id : κ) (args : List Val) (cb : Callback κ)
  | serve
  | close
  | cb

/-- Pairs the Client with the World of an outcome. -/
def Outcome.withClient {ρ : Type} (c : Client) :
    Outcome (World κ) ρ → Outcome (World κ × Client) Unit
  | .returned w _ => .returned (w, c) ()
  | .blocked w => .blocked (w, c)
  | .panicked w p => .panicked (w, c) p

/-- One step.  A receive of the Server on the empty open mailbox leaves the Server
parked in it, so that the next non-blocking send hands its request over; a receive
on the empty closed mailbox, and a receive of the Client that finds nothing, leave
the state as it is. -/
def Client.asynStep (cfg : Conf) (s : World κ × Client) :
    AsynStep κ → Outcome (World κ × Client) Unit
  | .asynCall id args cb => Client.AsynCall cfg s.1 s.2 id args (some (.inl cb))
  | .serve =>
    match s.1.receiver with
    | .handed ci => (Server.Exec cfg (s.1.setReceiver .away) ci).withClient s.2
    | _ =>
      match s.1.srv.ChanCall.recv with
      | .value ci ch =>
        (Server.Exec cfg ((s.1.setCall ch).setReceiver .away) ci).withClient s.2
      | .empty => .returned (s.1.setReceiver .waiting, s.2) ()
      | .closed => .returned s ()
  | .close => (Server.Close s.1).withClient s.2
  | .cb =>
    match (s.1.chans s.2.ChanAsynRet).recv with
    | .value ri ch => .returned (Client.Cb cfg (s.1.setChan s.2.ChanAsynRet ch) s.2 ri) ()
    | _ => .returned s ()

def Client.asynRun (cfg : Conf) (s : World κ × Client) (steps : List (AsynStep κ)) :
    World κ × Client :=
  steps.foldl (fun s st => (Client.asynStep cfg s st).state) s

/-- Number of Results owed to the Client: waiting in its asynchronous-return queue,
or still to be produced for its requests held by the Server (in the mailbox, or
handed to the receive of the Server and not yet executed). -/
def Client.backlog (s : World κ × Client) : Nat :=
  (s.1.chans s.2.ChanAsynRet).buf.length + (addressed s.2.ChanAsynRet s.1.held).length

/-- The invariant below, on the parts of the state it is about: the
asynchronous-return queue `q` (named `asyn`), the parked senders `senders` of the
mailbox, the requests `held` by the Server and the in-flight count.  The queue has
capacity `l`, is open and has no parked sender; the mailbox has no parked sender and
the Server holds only fire-and-forget requests and requests of this Client; the count
is the number of Results in the queue plus the number of the Client's requests held,
and is at most `l`. -/
def AsynOK (l : Nat) (asyn : ChanId) (q : Chan (RetInfo κ)) (senders held : List (CallInfo κ))
    (pending : Int) : Prop :=
  q.cap = l ∧ q.closed = false ∧ q.sendq = [] ∧ senders = [] ∧
  (∀ ci ∈ held, ci.chanRet = none ∨ ci.chanRet = some asyn) ∧
  pending = ((q.buf.length + (addressed asyn held).length : Nat) : Int) ∧
  pending ≤ (l : Int)

/-- State invariant of a Client with an asynchronous-return queue of capacity `l`. -/
def Client.AsynInv (l : Nat) (s : World κ × Client) : Prop :=
  AsynOK l s.2.ChanAsynRet (s.1.chans s.2.ChanAsynRet) s.1.srv.ChanCall.sendq s.1.held
    s.2.pendingAsynCall

namespace Demo

/-- A callback taking one value. -/
def valueCb : Callback Nat := .cb1 fun _ _ => .ok ()

/-- Two asynchronous calls (the second to an unregistered key), the execution of the
first by the Server, and the two Results handed to `Cb`. -/
def asynSchedule : List (AsynStep Nat) :=
  [.asynCall 7 [] valueCb, .asynCall 3 [] faultyCb, .serve, .cb, .cb]

/-- The demo Server with an unbuffered mailbox, as `NewServer(0)` makes it. -/
def unbuffered : World Nat := world.setCall (Chan.make _ 0)

/-- On the unbuffered mailbox: the Server parks in its receive, an asynchronous call
hands it a request, the Server executes it. -/
def handoffSchedule : List (AsynStep Nat) :=
  [.serve, .asynCall 7 [] valueCb, .serve]

end Demo

/-! ## timer: cron -/

/-- Points in time. -/
abbrev Time := Nat

/-- `CronExpr` is declared outside the sources at hand; `CronFunc` only uses its
method `Next`, taken here as a parameter: `none` is the zero time ("no further
occurrence"). -/
structure CronExpr where
  Next : Time → Option Time

/-- A dispatcher with one Cron handle.  `timers` is the heap of the handles made by
`AfterFunc` (numbered from 0, `count` made so far; unused cells hold an inert handle);
for these handles `cb = some f` stands for the closure `cb` that `CronFunc` builds
around the user callback `f`.  `c` is the field `t` of the Cron handle, `ChanTimer` the
queue of fired handles, `trace` the calls of the user callback and the logged faults. -/
structure CronWorld where
  timers : Nat → Timer
  count : Nat
  c : Option Nat
  ChanTimer : Chan Nat
  trace : List Ev

def CronWorld.setTimer (w : CronWorld) (i : Nat) (t : Timer) : CronWorld :=
  { w with timers := fun j => if j = i then t else w.timers j }

/-- `NewDispatcher(l)` with a Cron handle not yet set up (`new(Cron)`). -/
def NewDispatcher (l : Nat) : CronWorld :=
  { timers := fun _ => { t := false, cb := none }, count := 0, c := none,
    ChanTimer := Chan.make _ l, trace := [] }

/-- `c.t = disp.AfterFunc(d, cb)`: a new armed handle, referenced by the Cron. -/
def CronWorld.arm (w : CronWorld) (f : Func) : CronWorld :=
  { (w.setTimer w.count (Dispatcher.AfterFunc (some f))) with
    count := w.count + 1, c := some w.count }

/-- `CronFunc(cronExpr, _cb)` called at time `now` on a new dispatcher. -/
def Dispatcher.CronFunc (w : CronWorld) (cronExpr : CronExpr) (now : Time) (_cb : Func) :
    CronWorld :=
  match cronExpr.Next now with
  | none => { w with c := none }
  | some _ => w.arm _cb

/-- `Cron.Stop()`: stops the referenced handle, if there is one. -/
def Cron.Stop (w : CronWorld) : CronWorld :=
  match w.c with
  | none => w
  | some i => w.setTimer i (w.timers i).Stop

/-- The closure `cb` of `CronFunc`, entered at time `now`: re-arms when the schedule
has a next occurrence, then (deferred) calls the user callback `f`; `stopInside` tells
whether the user callback calls `Stop()` on the Cron handle. -/
def Dispatcher.cronCb (cronExpr : CronExpr) (w : CronWorld) (f : Func) (now : Time)
    (stopInside : Bool) : CronWorld :=
  let w1 := match cronExpr.Next now with
    | none => w
    | some _ => w.arm f
  let w2 := { w1 with trace := w1.trace ++ [.ran f] }
  if stopInside then Cron.Stop w2 else w2

/-- `Cb()` of handle `i` when its callback is the Cron closure: runs the closure when
the reference is set; the deferred function clears the reference, recovers and logs a
fault of the user callback. -/
def CronWorld.Cb (cfg : Conf) (cronExpr : CronExpr) (w : CronWorld) (i : Nat) (now : Time)
    (stopInside : Bool) : CronWorld :=
  match (w.timers i).cb with
  | none => w.setTimer i { w.timers i with cb := none }
  | some f =>
    let w1 := Dispatcher.cronCb cronExpr w f now stopInside
    { (w1.setTimer i { w1.timers i with cb := none }) with
      trace := w1.trace ++ recoverLog cfg f }

/-- What can happen next: the runtime timer of handle `i` fires and the handle is
pushed on `ChanTimer`; the owner pulls a handle and calls its `Cb()` (at time `now`,
the user callback calling `Stop()` or not); the owner calls `Stop()` on the Cron.
The owner runs one call at a time, so a delivery is one step; the firing of a handle
armed during a delivery is taken after that delivery. -/
inductive CronStep where
  | fire (i : Nat)
  | deliver (now : Time) (stopInside : Bool)
  | stop
  deriving DecidableEq, Repr

/-- One step; a step that is not enabled leaves the state as it is. -/
def CronWorld.step (cfg : Conf) (cronExpr : CronExpr) (w : CronWorld) : CronStep → CronWorld
  | .fire i =>
    if (w.timers i).t then
      match w.ChanTimer.send i with
      | .sent ch => { (w.setTimer i { w.timers i with t := false }) with ChanTimer := ch }
      | .parked ch => { (w.setTimer i { w.timers i with t := false }) with ChanTimer := ch }
      | .panic => w
    else w
  | .deliver now stopInside =>
    match w.ChanTimer.recv with
    | .value i ch => CronWorld.Cb cfg cronExpr { w with ChanTimer := ch } i now stopInside
    | _ => w
  | .stop => Cron.Stop w

def CronWorld.run (cfg : Conf) (cronExpr : CronExpr) (w : CronWorld) (steps : List CronStep) :
    CronWorld :=
  steps.foldl (CronWorld.step cfg cronExpr) w

/-- No handle is armed and none holds a callback. -/
def CronWorld.AllDead (w : CronWorld) : Prop :=
  ∀ i, (w.timers i).t = false ∧ (w.timers i).cb = none

/-- State invariant of a Cron with user callback `f`: only the handle the Cron
references can be armed or hold a callback, a fired handle waiting in `ChanTimer` is
not armed, and a callback held by a handle is the closure around `f`. -/
def CronWorld.Inv (f : Func) (w : CronWorld) : Prop :=
  (∀ i, w.c ≠ some i → (w.timers i).t = false ∧ (w.timers i).cb = none) ∧
  (∀ i, i ∈ w.ChanTimer.pending → (w.timers i).t = false ∧ i < w.count) ∧
  (∀ i, (w.timers i).cb = none ∨ (w.timers i).cb = some f) ∧
  (∀ i, w.count ≤ i → w.c ≠ some i)

namespace Demo

/-- A schedule with occurrences up to time 10 only. -/
def untilTen : CronExpr := { Next := fun now => if now < 10 then some (now + 1) else none }

/-- A schedule without any occurrence. -/
def never : CronExpr := { Next := fun _ => none }

end Demo

/-! ## network: length-prefixed framing -/

abbrev Byte := Fin 256

/-- The conversion `byte(n)`. -/
def byte (n : Nat) : Byte := ⟨n % 256, Nat.mod_lt _ (by decide)⟩

/-- The conversion `uint32(n)` and the result of `uint32` arithmetic. -/
def uint32 (n : Nat) : Nat := n % 4294967296

/-- The conversion `uint16(n)`. -/
def uint16 (n : Nat) : Nat := n % 65536

structure MsgParser where
  lenMsgLen : Nat
  minMsgLen : Nat
  maxMsgLen : Nat
  littleEndian : Bool

def NewMsgParser : MsgParser :=
  { lenMsgLen := 2, minMsgLen := 1, maxMsgLen := 4096, littleEndian := false }

/-- First half of `SetMsgLen`: the three guarded assignments. -/
def MsgParser.assignLens (p : MsgParser) (lenMsgLen : Int) (minMsgLen maxMsgLen : Nat) :
    MsgParser :=
  let p1 := if lenMsgLen = 1 ∨ lenMsgLen = 2 ∨ lenMsgLen = 4 then
    { p with lenMsgLen := lenMsgLen.toNat } else p
  let p2 := if minMsgLen ≠ 0 then { p1 with minMsgLen := minMsgLen } else p1
  if maxMsgLen ≠ 0 then { p2 with maxMsgLen := maxMsgLen } else p2

/-- The local `max` of `SetMsgLen`: the largest length `lenMsgLen` bytes can hold. -/
def MsgParser.maxOfLen (p : MsgParser) : Nat :=
  match p.lenMsgLen with
  | 1 => 255
  | 2 => 65535
  | 4 => 4294967295
  | _ => 0

/-- Second half of `SetMsgLen`: both bounds are cut down to `max`. -/
def MsgParser.clamp (p : MsgParser) : MsgParser :=
  let p4 := if p.minMsgLen > p.maxOfLen then { p with minMsgLen := p.maxOfLen } else p
  if p4.maxMsgLen > p.maxOfLen then { p4 with maxMsgLen := p.maxOfLen } else p4

/-- `SetMsgLen(lenMsgLen, minMsgLen, maxMsgLen)`; the two `uint32` arguments are
numbers below `2 ^ 32`. -/
def MsgParser.SetMsgLen (p : MsgParser) (lenMsgLen : Int) (minMsgLen maxMsgLen : Nat) :
    MsgParser :=
  (p.assignLens lenMsgLen minMsgLen maxMsgLen).clamp

def MsgParser.SetByteOrder (p : MsgParser) (littleEndian : Bool) : MsgParser :=
  { p with littleEndian := littleEndian }

/-- Configurations reachable from `NewMsgParser()` by `SetMsgLen` and `SetByteOrder`. -/
inductive MsgParser.Reachable : MsgParser → Prop where
  | new : MsgParser.Reachable NewMsgParser
  | setMsgLen (p : MsgParser) (n : Int) (mn mx : Nat) : MsgParser.Reachable p →
      mn < 4294967296 → mx < 4294967296 → MsgParser.Reachable (p.SetMsgLen n mn mx)
  | setByteOrder (p : MsgParser) (b : Bool) : MsgParser.Reachable p →
      MsgParser.Reachable (p.SetByteOrder b)

/-- `binary.BigEndian.PutUint16(b, v)`; `none` is the panic of its bounds check. -/
def putUint16BE (b : List Byte) (v : Nat) : Option (List Byte) :=
  if 1 < b.length then some ((b.set 0 (byte (v / 256))).set 1 (byte v)) else none

def putUint16LE (b : List Byte) (v : Nat) : Option (List Byte) :=
  if 1 < b.length then some ((b.set 0 (byte v)).set 1 (byte (v / 256))) else none

def putUint32BE (b : List Byte) (v : Nat) : Option (List Byte) :=
  if 3 < b.length then
    some ((((b.set 0 (byte (v / 16777216))).set 1 (byte (v / 65536))).set 2
      (byte (v / 256))).set 3 (byte v))
  else none

def putUint32LE (b : List Byte) (v : Nat) : Option (List Byte) :=
  if 3 < b.length then
    some ((((b.set 0 (byte v)).set 1 (byte (v / 256))).set 2 (byte (v / 65536))).set 3
      (byte (v / 16777216)))
  else none

/-- The byte at index `i` of a buffer that is long enough. -/
def byteAt (b : List Byte) (i : Nat) : Nat := (b.getD i 0).val

def uint16BE (b : List Byte) : Nat := byteAt b 1 + byteAt b 0 * 256

def uint16LE (b : List Byte) : Nat := byteAt b 0 + byteAt b 1 * 256

def uint32BE (b : List Byte) : Nat :=
  byteAt b 3 + byteAt b 2 * 256 + byteAt b 1 * 65536 + byteAt b 0 * 16777216

def uint32LE (b : List Byte) : Nat :=
  byteAt b 0 + byteAt b 1 * 256 + byteAt b 2 * 65536 + byteAt b 3 * 16777216

/-- The builtin `copy(msg[l:], src)` for `l ≤ len(msg)`. -/
def copyAt (msg : List Byte) (l : Nat) (src : List Byte) : List Byte :=
  msg.take l ++ src.take (msg.length - l) ++ msg.drop (l + min src.length (msg.length - l))

/-- The copy loop of `Write`; `none` is the panic of `msg[l:]` with `l > len(msg)`. -/
def copyArgs (msg : List Byte) (l : Nat) : List (List Byte) → Option (List Byte)
  | [] => some msg
  | a :: rest => if l ≤ msg.length then copyArgs (copyAt msg l a) (l + a.length) rest else none

/-- The `switch p.lenMsgLen` of `Write` that stores the length. -/
def MsgParser.putLen (p : MsgParser) (msg : List Byte) (msgLen : Nat) : Option (List Byte) :=
  match p.lenMsgLen with
  | 1 => if 0 < msg.length then some (msg.set 0 (byte msgLen)) else none
  | 2 => if p.littleEndian then putUint16LE msg (uint16 msgLen)
         else putUint16BE msg (uint16 msgLen)
  | 4 => if p.littleEndian then putUint32LE msg msgLen else putUint32BE msg msgLen
  | _ => some msg

/-- The sum loop of `Write`: `msgLen += uint32(len(args[i]))` in `uint32`. -/
def sumLen (args : List (List Byte)) : Nat :=
  args.foldl (fun acc a => uint32 (acc + uint32 a.length)) 0

/-- Result of `Write`: the error returned, the frame handed to `conn.Write` (with a
nil error), or a runtime panic. -/
inductive WriteResult where
  | error (e : String)
  | wrote (frame : List Byte)
  | panic (e : String)
  deriving DecidableEq, Repr

def MsgParser.Write (p : MsgParser) (args : List (List Byte)) : WriteResult :=
  let msgLen := sumLen args
  if msgLen > p.maxMsgLen then .error "message too long"
  else if msgLen < p.minMsgLen then .error "message too short"
  else
    let msg := List.replicate (uint32 (uint32 p.lenMsgLen + msgLen)) (0 : Byte)
    match p.putLen msg msgLen with
    | none => .panic "index out of range"
    | some msg1 =>
      match copyArgs msg1 p.lenMsgLen args with
      | none => .panic "slice bounds out of range"
      | some msg2 => .wrote msg2

/-- `io.ReadFull(conn, buf)` with `len(buf) = n` on the bytes still to come from the
connection, which then ends: the bytes read and the bytes left, or the error, which
is `io.EOF` when no byte could be read and `io.ErrUnexpectedEOF` when the stream ends
after some but not all of the `n` bytes. -/
def readFull (stream : List Byte) (n : Nat) : Except String (List Byte × List Byte) :=
  if n ≤ stream.length then .ok (stream.take n, stream.drop n)
  else if stream.isEmpty then .error "EOF"
  else .error "unexpected EOF"

/-- The `switch p.lenMsgLen` of `Read` that parses the length. -/
def MsgParser.parseLen (p : MsgParser) (bufMsgLen : List Byte) : Nat :=
  match p.lenMsgLen with
  | 1 => byteAt bufMsgLen 0
  | 2 => if p.littleEndian then uint16LE bufMsgLen else uint16BE bufMsgLen
  | 4 => if p.littleEndian then uint32LE bufMsgLen else uint32BE bufMsgLen
  | _ => 0

/-- Result of `Read`: the message and the bytes left on the connection, or the
error. -/
inductive ReadResult where
  | ok (msgData : List Byte) (rest : List Byte)
  | error (e : String)
  deriving DecidableEq, Repr

/-- `Read`: the error of either `io.ReadFull` is returned as it is. -/
def MsgParser.Read (p : MsgParser) (stream : List Byte) : ReadResult :=
  match readFull stream p.lenMsgLen with
  | .error err => .error err
  | .ok (bufMsgLen, rest) =>
    let msgLen := p.parseLen bufMsgLen
    if msgLen > p.maxMsgLen then .error "message too long"
    else if msgLen < p.minMsgLen then .error "message too short"
    else
      match readFull rest msgLen with
      | .error err => .error err
      | .ok (msgData, rest1) => .ok msgData rest1

/-- The total length of the slices given to `Write`. -/
def totalLen (args : List (List Byte)) : Nat := (args.map List.length).sum

/-- The length `n` written in `lenMsgLen` bytes of the configured byte order. -/
def MsgParser.header (p : MsgParser) (n : Nat) : List Byte :=
  match p.lenMsgLen with
  | 1 => [byte n]
  | 2 => if p.littleEndian then [byte n, byte (n / 256)] else [byte (n / 256), byte n]
  | 4 =>
    if p.littleEndian then [byte n, byte (n / 256), byte (n / 65536), byte (n / 16777216)]
    else [byte (n / 16777216), byte (n / 65536), byte (n / 256), byte n]
  | _ => []

namespace Demo

/-- The parser after `SetMsgLen(4, 0, 4294967295)`. -/
def wideParser : MsgParser := NewMsgParser.SetMsgLen 4 0 4294967295

end Demo

/-! # Theorems -/

/-! ## chanrpc: theorems -/

/-- C1. Synchronous call round trip: when a single-result function `body` is
registered under `k` and does not fault on `args`, `Call1(k, args)` on an attached
Client places the request `ci` (function, arguments, the Client's synchronous slot)
in the open mailbox; when the Server then runs `Exec` on that request, in any state
in which the Client's synchronous slot is still the empty one-slot channel, `Exec`
returns, the function has been called once on `args`, and the receive that completes
`Call1` returns exactly the value of `body args` with a nil failure. -/
theorem call1_round_trip (cfg : Conf) (w : World κ) (c : Client) (k : κ) (args : List Val)
    (body : List Val → Except String Val) (v : Val)
    (hreg : w.srv.functions k = some (.f1 body))
    (hok : body args = .ok v)
    (hatt : c.s = true)
    (hopen : w.srv.ChanCall.closed = false) :
    let ci : CallInfo κ :=
      { f := .f1 body, args := args, chanRet := some c.chanSyncRet, cb := none }
    (∃ w1, w1.chans = w.chans ∧ w1.trace = w.trace ∧ w1.srv.functions = w.srv.functions ∧
        ((Client.Call1_send w c k args = .returned w1 none ∧
            w1.srv.ChanCall.buf = w.srv.ChanCall.buf ++ [ci] ∧
            w1.srv.ChanCall.sendq = w.srv.ChanCall.sendq) ∨
         (Client.Call1_send w c k args = .blocked w1 ∧
            w1.srv.ChanCall.buf = w.srv.ChanCall.buf ∧
            w1.srv.ChanCall.sendq = w.srv.ChanCall.sendq ++ [ci]))) ∧
    ∀ w2 : World κ, w2.chans c.chanSyncRet = Chan.make _ 1 →
      ∃ w3 w4, Server.Exec cfg w2 ci = .returned w3 () ∧
        w3.trace = w2.trace ++ [.call (.f1 body) args] ∧
        Client.Call1_recv w3 c = .returned w4 (v, none) ∧
        w4.chans c.chanSyncRet = Chan.make _ 1 := by
  intro ci
  constructor
  · by_cases hroom : w.srv.ChanCall.buf.length < w.srv.ChanCall.cap
    · refine ⟨w.setCall { w.srv.ChanCall with buf := w.srv.ChanCall.buf ++ [ci] },
        rfl, rfl, rfl, Or.inl ⟨?_, rfl, rfl⟩⟩
      simp [Client.Call1_send, Client.callSend, Client.f, hatt, hreg, Client.call,
        Chan.send, hopen, hroom, ci]
    · refine ⟨w.setCall { w.srv.ChanCall with sendq := w.srv.ChanCall.sendq ++ [ci] },
        rfl, rfl, rfl, Or.inr ⟨?_, rfl, rfl⟩⟩
      simp [Client.Call1_send, Client.callSend, Client.f, hatt, hreg, Client.call,
        Chan.send, hopen, hroom, ci]
  · intro w2 hslot
    let ri : RetInfo κ := { ret := v, err := none, cb := none }
    let w3 : World κ := (w2.emit (.call (.f1 body) args)).setChan c.chanSyncRet
      { cap := 1, buf := [ri], sendq := [], closed := false }
    refine ⟨w3, w3.setChan c.chanSyncRet (Chan.make _ 1), ?_, rfl, ?_, ?_⟩
    · simp [Server.Exec, Server.exec, ci, hok, Server.ret, World.emit, hslot, Chan.send,
        Chan.make, w3, ri]
    · simp [Client.Call1_recv, Client.callRecv, World.setChan, Chan.recv, w3, ri, Chan.make]
    · simp [World.setChan]

theorem call1_round_trip_witness :
    Demo.world.srv.functions 7 = some (.f1 Demo.answer) ∧
    ∃ w3 w4, Server.Exec Demo.cfg Demo.world
        { f := .f1 Demo.answer, args := [], chanRet := some Demo.client.chanSyncRet,
          cb := none } = .returned w3 () ∧
      w3.trace = Demo.world.trace ++ [.call (.f1 Demo.answer) []] ∧
      Client.Call1_recv w3 Demo.client = .returned w4 (.int 42, none) ∧
      w4.chans Demo.client.chanSyncRet = Chan.make _ 1 :=
  ⟨rfl, (call1_round_trip Demo.cfg Demo.world Demo.client 7 [] Demo.answer (.int 42)
    rfl rfl rfl rfl).2 Demo.world rfl⟩

/-- C2. Lookup and arity errors: on an attached Client, each of `Call0`, `Call1`,
`CallN` returns the error "function not registered" for an unregistered key and
the error "return type mismatch" for a key whose registered shape differs from the
arity of the call; the call returns at once in the unchanged state: nothing is added
to the mailbox and the trace (no function is executed) is the same. -/
theorem call_lookup_arity_errors (w : World κ) (c : Client) (id : κ) (args : List Val)
    (hatt : c.s = true) :
    (w.srv.functions id = none →
      Client.Call0_send w c id args = .returned w (some (.notRegistered id)) ∧
      Client.Call1_send w c id args = .returned w (some (.notRegistered id)) ∧
      Client.CallN_send w c id args = .returned w (some (.notRegistered id))) ∧
    (∀ f, w.srv.functions id = some f →
      (f.arity ≠ 0 → Client.Call0_send w c id args = .returned w (some (.typeMismatch id))) ∧
      (f.arity ≠ 1 → Client.Call1_send w c id args = .returned w (some (.typeMismatch id))) ∧
      (f.arity ≠ 2 → Client.CallN_send w c id args = .returned w (some (.typeMismatch id)))) := by
  constructor
  · intro hnone
    simp [Client.Call0_send, Client.Call1_send, Client.CallN_send, Client.callSend, Client.f,
      hatt, hnone]
  · intro f hf
    cases f <;>
      simp [Client.Call0_send, Client.Call1_send, Client.CallN_send, Client.callSend,
        Client.f, hatt, hf, Fn.arity]

theorem call_lookup_arity_errors_witness :
    Client.Call1_send Demo.world Demo.client 3 [] =
        .returned Demo.world (some (.notRegistered 3)) ∧
    Client.Call0_send Demo.world Demo.client 7 [] =
        .returned Demo.world (some (.typeMismatch 7)) ∧
    Client.CallN_send Demo.world Demo.client 7 [] =
        .returned Demo.world (some (.typeMismatch 7)) :=
  have h := call_lookup_arity_errors Demo.world Demo.client
  ⟨((h 3 [] rfl).1 rfl).2.1,
   ((h 7 [] rfl).2 (.f1 Demo.answer) rfl).1 (by decide),
   ((h 7 [] rfl).2 (.f1 Demo.answer) rfl).2.2 (by decide)⟩

theorem addressed_cons_ne (c : ChanId) (ci : CallInfo κ) (rest : List (CallInfo κ))
    (h : ci.chanRet ≠ some c) : addressed c (ci :: rest) = addressed c rest := by
  simp [addressed, List.filter_cons, h]

theorem addressed_cons_eq (c : ChanId) (ci : CallInfo κ) (rest : List (CallInfo κ))
    (h : ci.chanRet = some c) : addressed c (ci :: rest) = ci :: addressed c rest := by
  simp [addressed, List.filter_cons, h]

/-- The drain loop on a mailbox whose buffer is `reqs`, every addressed return
channel being open with room for the Results addressed to it. -/
theorem Server.drain_spec (reqs : List (CallInfo κ)) : ∀ w : World κ,
    w.srv.ChanCall.buf = reqs →
    (∀ c, addressed c reqs ≠ [] → (w.chans c).closed = false ∧
      (w.chans c).buf.length + (addressed c reqs).length ≤ (w.chans c).cap) →
    ∃ w', Server.drain w reqs = .returned w' () ∧
      w'.srv = { w.srv with ChanCall := { w.srv.ChanCall with buf := [] } } ∧
      w'.trace = w.trace ∧
      ∀ c, w'.chans c =
        { w.chans c with buf := (w.chans c).buf ++ (addressed c reqs).map closedResult } := by
  induction reqs with
  | nil =>
    intro w hbuf _
    refine ⟨w, rfl, ?_, rfl, ?_⟩
    · obtain ⟨⟨fs, ⟨cap, buf, sendq, closed⟩⟩, chans, trace⟩ := w
      simp only at hbuf
      simp [hbuf]
    · intro c
      simp [addressed]
  | cons ci rest ih =>
    intro w hbuf hroom
    cases hret : ci.chanRet with
    | none =>
      have hstep : Server.drain w (ci :: rest) =
          Server.drain (w.setCall { w.srv.ChanCall with buf := rest }) rest := by
        simp [Server.drain, Server.ret, hret]
      have hadd : ∀ c, addressed c (ci :: rest) = addressed c rest := fun c =>
        addressed_cons_ne c ci rest (by simp [hret])
      obtain ⟨w', hd, hsrv, htr, hch⟩ :=
        ih (w.setCall { w.srv.ChanCall with buf := rest }) rfl (by
          intro c hc
          have := hroom c (by rw [hadd c]; exact hc)
          rw [hadd c] at this
          exact this)
      refine ⟨w', by rw [hstep, hd], by simpa [World.setCall] using hsrv,
        by simpa [World.setCall] using htr, ?_⟩
      intro c
      rw [hadd c]
      simpa [World.setCall] using hch c
    | some c0 =>
      have hadd0 := addressed_cons_eq c0 ci rest hret
      obtain ⟨hopen, hlen⟩ := hroom c0 (by simp [hadd0])
      have hlt : (w.chans c0).buf.length < (w.chans c0).cap := by
        rw [hadd0] at hlen
        simp only [List.length_cons] at hlen
        omega
      let w1 : World κ := (w.setCall { w.srv.ChanCall with buf := rest }).setChan c0
        { w.chans c0 with buf := (w.chans c0).buf ++ [closedResult ci] }
      have hstep : Server.drain w (ci :: rest) = Server.drain w1 rest := by
        simp [Server.drain, Server.ret, hret, Chan.send, World.setCall, hopen, hlt, w1,
          closedResult]
      obtain ⟨w', hd, hsrv, htr, hch⟩ := ih w1 rfl (by
        intro c hc
        by_cases hcc : c = c0
        · subst hcc
          simp only [w1, World.setChan, World.setCall, if_true, List.length_append,
            List.length_singleton]
          rw [hadd0] at hlen
          simp only [List.length_cons] at hlen
          exact ⟨hopen, by omega⟩
        · have hne : ci.chanRet ≠ some c := by
            rw [hret]
            intro h
            exact hcc (Option.some.inj h).symm
          have hadd := addressed_cons_ne c ci rest hne
          have := hroom c (by rw [hadd]; exact hc)
          rw [hadd] at this
          simpa [w1, World.setChan, World.setCall, hcc] using this)
      refine ⟨w', by rw [hstep, hd], by simpa [w1, World.setCall, World.setChan] using hsrv,
        by simpa [w1, World.setCall, World.setChan] using htr, ?_⟩
      intro c
      rw [hch c]
      by_cases hcc : c = c0
      · subst hcc
        simp [w1, World.setChan, World.setCall, hadd0]
      · have hne : ci.chanRet ≠ some c := by
          rw [hret]
          intro h
          exact hcc (Option.some.inj h).symm
        simp [w1, World.setChan, World.setCall, hcc, addressed_cons_ne c ci rest hne]

theorem count_filterMap_chanRet (c : ChanId) (reqs : List (CallInfo κ)) :
    (reqs.filterMap fun ci => ci.chanRet).count c = (addressed c reqs).length := by
  induction reqs with
  | nil => simp [addressed]
  | cons ci rest ih =>
    cases hret : ci.chanRet with
    | none =>
      rw [addressed_cons_ne c ci rest (by simp [hret])]
      simp [List.filterMap_cons, hret, ih]
    | some c0 =>
      by_cases hcc : c0 = c
      · subst hcc
        rw [addressed_cons_eq c0 ci rest hret]
        simp [List.filterMap_cons, hret, ih]
      · have hne : ci.chanRet ≠ some c := by
          rw [hret]
          intro h
          exact hcc (Option.some.inj h)
        rw [addressed_cons_ne c ci rest hne]
        simp [List.filterMap_cons, hret, ih, List.count_cons, hcc]

theorem length_filterMap_chanRet (reqs : List (CallInfo κ)) :
    (reqs.filterMap fun ci => ci.chanRet).length =
      (reqs.filter fun ci => ci.chanRet.isSome).length := by
  induction reqs with
  | nil => rfl
  | cons ci rest ih =>
    cases hret : ci.chanRet <;> simp [List.filterMap_cons, List.filter_cons, hret, ih]

/-- C4. Close drain: on an open mailbox whose buffer holds `reqs`, every return channel
addressed by a request being open with room for the Results addressed to it, `Close`
returns; the mailbox is closed and empty; every return channel received, behind what it
held and in mailbox order, exactly one Result per request addressed to it, with the
failure "chanrpc server closed", a nil value and the callback reference of that
request (so channels that no request addresses, and requests without return channel,
get nothing); the number of Results delivered over all channels is the number `K` of
requests carrying a return channel; and the trace is unchanged: no function ran. -/
theorem close_drains (w : World κ)
    (hopen : w.srv.ChanCall.closed = false)
    (hroom : ∀ c, addressed c w.srv.ChanCall.buf ≠ [] → (w.chans c).closed = false ∧
      (w.chans c).buf.length + (addressed c w.srv.ChanCall.buf).length ≤ (w.chans c).cap) :
    ∃ w', Server.Close w = .returned w' () ∧
      w'.srv.ChanCall.buf = [] ∧ w'.srv.ChanCall.pending = [] ∧
      w'.srv.ChanCall.closed = true ∧
      w'.srv.functions = w.srv.functions ∧
      w'.trace = w.trace ∧
      (∀ c, w'.chans c = { w.chans c with
        buf := (w.chans c).buf ++ (addressed c w.srv.ChanCall.buf).map closedResult }) ∧
      (((w.srv.ChanCall.buf.filterMap fun ci => ci.chanRet).dedup.map fun c =>
          (w'.chans c).buf.length - (w.chans c).buf.length).sum =
        (w.srv.ChanCall.buf.filter fun ci => ci.chanRet.isSome).length) := by
  obtain ⟨w', hd, hsrv, htr, hch⟩ := Server.drain_spec w.srv.ChanCall.buf
    (w.setCall { w.srv.ChanCall with closed := true, sendq := [] }) rfl
    (by simpa [World.setCall] using hroom)
  have hclose : Server.Close w = .returned w' () := by
    simp only [Server.Close, Chan.close, hopen]
    simpa using hd
  simp only [World.setCall] at hsrv htr hch
  refine ⟨w', hclose, by simp [hsrv], by simp [hsrv, Chan.pending], by simp [hsrv],
    by simp [hsrv], htr, hch, ?_⟩
  have hdiff : ∀ c, (w'.chans c).buf.length - (w.chans c).buf.length =
      (w.srv.ChanCall.buf.filterMap fun ci => ci.chanRet).count c := by
    intro c
    rw [hch c, count_filterMap_chanRet]
    simp
  simp only [hdiff]
  rw [List.sum_map_count_dedup_eq_length, length_filterMap_chanRet]

theorem close_drains_witness :
    ∃ w', Server.Close Demo.closing = .returned w' () ∧
      w'.srv.ChanCall.buf = [] ∧ w'.srv.ChanCall.pending = [] ∧
      w'.srv.ChanCall.closed = true ∧
      w'.srv.functions = Demo.closing.srv.functions ∧
      w'.trace = Demo.closing.trace ∧
      (∀ c, w'.chans c = { Demo.closing.chans c with
        buf := (Demo.closing.chans c).buf ++
          (addressed c Demo.closing.srv.ChanCall.buf).map closedResult }) ∧
      (((Demo.closing.srv.ChanCall.buf.filterMap fun ci => ci.chanRet).dedup.map fun c =>
          (w'.chans c).buf.length - (Demo.closing.chans c).buf.length).sum =
        (Demo.closing.srv.ChanCall.buf.filter fun ci => ci.chanRet.isSome).length) :=
  close_drains Demo.closing rfl (by
    intro c _
    refine ⟨rfl, ?_⟩
    by_cases h : c = 1
    · subst h
      decide
    · have h0 : addressed c Demo.closing.srv.ChanCall.buf = [] := by
        have h1 : (some 1 : Option ChanId) ≠ some c := fun e => h (Option.some.inj e).symm
        simp [addressed, Demo.closing, Demo.request, h1]
      rw [h0]
      simp [Demo.closing, Chan.make])

/-- C5. Asynchronous admission control: when the in-flight count of a Client is at
least the capacity of its asynchronous-return queue, `AsynCall` with a callback of one
of the three shapes returns at once; the callback has been invoked exactly once, with
a nil value and the failure "too many calls" (the only other new trace entry is the
log line of a fault raised by the callback itself); the Server (function table and
mailbox), every return channel and the Client (its in-flight count) are unchanged. -/
theorem asyncall_too_many_calls (cfg : Conf) (w : World κ) (c : Client) (id : κ)
    (args : List Val) (cb : Callback κ)
    (hfull : c.pendingAsynCall ≥ ((w.chans c.ChanAsynRet).cap : Int)) :
    ∃ w' log, Client.AsynCall cfg w c id args (some (.inl cb)) = .returned (w', c) () ∧
      w'.srv = w.srv ∧ w'.chans = w.chans ∧
      w'.trace = w.trace ++ cb.nilEvent .tooManyCalls :: log ∧
      log.length ≤ 1 ∧ ∀ e ∈ log, ∃ x, e = Event.logError x := by
  have hret : Client.AsynCall cfg w c id args (some (.inl cb)) =
      .returned (execCb cfg w { ret := .nil, err := some .tooManyCalls, cb := some cb }, c) () := by
    simp [Client.AsynCall, hfull]
  rw [hret]
  cases cb with
  | cb0 body =>
    cases hb : body (some .tooManyCalls) with
    | ok u =>
      exact ⟨_, [], rfl, by simp [execCb, hb, World.emit],
        by simp [execCb, hb, World.emit], by simp [execCb, hb, World.emit, Callback.nilEvent],
        by simp, by simp⟩
    | error r =>
      exact ⟨_, [.logError (if cfg.LenStackBuf > 0 then .faultStack r cfg.stack else .fault r)],
        rfl, by simp [execCb, hb, World.emit, logFault],
        by simp [execCb, hb, World.emit, logFault],
        by simp [execCb, hb, World.emit, logFault, Callback.nilEvent],
        by simp, by simp⟩
  | cb1 body =>
    cases hb : body .nil (some .tooManyCalls) with
    | ok u =>
      exact ⟨_, [], rfl, by simp [execCb, hb, World.emit],
        by simp [execCb, hb, World.emit], by simp [execCb, hb, World.emit, Callback.nilEvent],
        by simp, by simp⟩
    | error r =>
      exact ⟨_, [.logError (if cfg.LenStackBuf > 0 then .faultStack r cfg.stack else .fault r)],
        rfl, by simp [execCb, hb, World.emit, logFault],
        by simp [execCb, hb, World.emit, logFault],
        by simp [execCb, hb, World.emit, logFault, Callback.nilEvent],
        by simp, by simp⟩
  | cbN body =>
    cases hb : body [] (some .tooManyCalls) with
    | ok u =>
      exact ⟨_, [], rfl, by simp [execCb, assert, hb, World.emit],
        by simp [execCb, assert, hb, World.emit],
        by simp [execCb, assert, hb, World.emit, Callback.nilEvent], by simp, by simp⟩
    | error r =>
      exact ⟨_, [.logError (if cfg.LenStackBuf > 0 then .faultStack r cfg.stack else .fault r)],
        rfl, by simp [execCb, assert, hb, World.emit, logFault],
        by simp [execCb, assert, hb, World.emit, logFault],
        by simp [execCb, assert, hb, World.emit, logFault, Callback.nilEvent],
        by simp, by simp⟩

theorem asyncall_too_many_calls_witness :
    ∃ w' log, Client.AsynCall Demo.cfg Demo.world Demo.busyClient 7 []
        (some (.inl Demo.faultyCb)) = .returned (w', Demo.busyClient) () ∧
      w'.srv = Demo.world.srv ∧ w'.chans = Demo.world.chans ∧
      w'.trace = Demo.world.trace ++ Demo.faultyCb.nilEvent .tooManyCalls :: log ∧
      log.length ≤ 1 ∧ ∀ e ∈ log, ∃ x, e = Event.logError x :=
  asyncall_too_many_calls Demo.cfg Demo.world Demo.busyClient 7 [] Demo.faultyCb
    (by decide)

/-- C7. Write-once registration: `Register(id, f)` panics exactly when `f` is not one
of the three shapes or `id` is already registered; a panicking call leaves the Server
as it was; a successful call maps `id` to `f`, leaves the entry of every other key
and the mailbox unchanged. -/
theorem register_write_once [DecidableEq κ] (s : Server κ) (id : κ) (f : Dyn) :
    ((s.Register id f).2.isSome ↔ ((∀ fn, f ≠ .fn fn) ∨ (s.functions id).isSome)) ∧
    ((s.Register id f).2.isSome → (s.Register id f).1 = s) ∧
    ((s.Register id f).2 = none →
      ∃ fn, f = .fn fn ∧ (s.Register id f).1.functions id = some fn ∧
        (∀ k, k ≠ id → (s.Register id f).1.functions k = s.functions k) ∧
        (s.Register id f).1.ChanCall = s.ChanCall) := by
  cases f with
  | other v => simp [Server.Register]
  | fn fn =>
    by_cases h : (s.functions id).isSome
    · simp [Server.Register, h]
    · simp only [Server.Register, h]
      refine ⟨by simp, by simp, ?_⟩
      intro _
      refine ⟨fn, rfl, by simp, ?_, rfl⟩
      intro k hk
      simp [hk]

theorem register_write_once_witness :
    ((NewServer Nat 1).Register 7 (.fn (.f1 Demo.answer))).2 = none ∧
    ((NewServer Nat 1).Register 7 (.fn (.f1 Demo.answer))).1.functions 7 =
      some (.f1 Demo.answer) ∧
    ((NewServer Nat 1).Register 7 (.other .nil)).2.isSome = true ∧
    (((NewServer Nat 1).Register 7 (.fn (.f1 Demo.answer))).1.Register 7
      (.fn (.f1 Demo.boom))).2.isSome = true :=
  have h2 := register_write_once ((NewServer Nat 1).Register 7 (.fn (.f1 Demo.answer))).1 7
    (.fn (.f1 Demo.boom))
  ⟨rfl, rfl, rfl, h2.1.mpr (Or.inr rfl)⟩

theorem Server.ret_not_panicked (w : World κ) (ci : CallInfo κ) (ri : RetInfo κ)
    (w' : World κ) (p : String) : Server.ret w ci ri ≠ .panicked w' p := by
  unfold Server.ret
  split
  · simp
  · split <;> simp

theorem Server.exec_not_panicked (cfg : Conf) (w : World κ) (ci : CallInfo κ)
    (w' : World κ) (p : String) : Server.exec cfg w ci ≠ .panicked w' p := by
  have hrec : ∀ (w0 : World κ) (r : String),
      Server.execRecover cfg w0 ci r ≠ .panicked w' p := by
    intro w0 r
    unfold Server.execRecover
    have := Server.ret_not_panicked w0 ci { ret := .nil, err := some (.fault r), cb := none }
    cases hr : Server.ret w0 ci { ret := .nil, err := some (.fault r), cb := none } with
    | returned w1 e => simp
    | blocked w1 => simp
    | panicked w1 p1 => exact absurd hr (this w1 p1)
  unfold Server.exec
  split <;> split <;> first | exact Server.ret_not_panicked _ _ _ _ _ | exact hrec _ _

/-- C8. Fault containment: when the function of a request faults on its arguments
with panic value `r`, `Exec` never lets the panic out.  For a request without return
channel `Exec` returns, has logged the fault and delivered nothing (no channel
changes).  For a request with return channel `c`, open and with room, `Exec` returns
and `c` received exactly one Result behind what it held, with the failure made from
`r`, a nil value and the callback reference of the request; no other channel and
nothing in the Server changes. -/
theorem exec_contains_fault (cfg : Conf) (w : World κ) (ci : CallInfo κ) (r : String)
    (hfault : ci.f.call ci.args = .error r) :
    (∀ w' p, Server.Exec cfg w ci ≠ .panicked w' p) ∧
    (ci.chanRet = none →
      ∃ w', Server.Exec cfg w ci = .returned w' () ∧ w'.chans = w.chans ∧ w'.srv = w.srv ∧
        w'.trace = w.trace ++ [.call ci.f ci.args,
          .logError (if cfg.LenStackBuf > 0 then .faultStack r cfg.stack else .fault r)]) ∧
    (∀ c, ci.chanRet = some c → (w.chans c).closed = false →
      (w.chans c).buf.length < (w.chans c).cap →
      ∃ w', Server.Exec cfg w ci = .returned w' () ∧ w'.srv = w.srv ∧
        w'.chans c = { w.chans c with
          buf := (w.chans c).buf ++ [{ ret := .nil, err := some (.fault r), cb := ci.cb }] } ∧
        (∀ c', c' ≠ c → w'.chans c' = w.chans c') ∧
        w'.trace = w.trace ++ [.call ci.f ci.args,
          .logError (if cfg.LenStackBuf > 0 then .faultStack r cfg.stack else .fault r)]) := by
  have hexec : Server.exec cfg w ci =
      Server.execRecover cfg (w.emit (.call ci.f ci.args)) ci r := by
    obtain ⟨f, args, chanRet, cb⟩ := ci
    cases f with
    | f0 body =>
      cases hb : body args with
      | ok u => simp [Fn.call, hb, Except.map] at hfault
      | error r0 =>
        simp only [Fn.call, hb, Except.map, Except.error.injEq] at hfault
        simp [Server.exec, hb, hfault]
    | f1 body =>
      simp only [Fn.call] at hfault
      simp [Server.exec, hfault]
    | fN body =>
      cases hb : body args with
      | ok u => simp [Fn.call, hb, Except.map] at hfault
      | error r0 =>
        simp only [Fn.call, hb, Except.map, Except.error.injEq] at hfault
        simp [Server.exec, hb, hfault]
  refine ⟨?_, ?_, ?_⟩
  · intro w' p h
    unfold Server.Exec at h
    split at h
    · cases h
    · cases h
    · cases h
    · rename_i w1 p1 he
      exact Server.exec_not_panicked cfg w ci w1 p1 he
  · intro hnone
    refine ⟨(w.emit (.call ci.f ci.args)).emit (.logError
      (if cfg.LenStackBuf > 0 then .faultStack r cfg.stack else .fault r)), ?_, rfl, rfl, ?_⟩
    · simp [Server.Exec, hexec, Server.execRecover, Server.ret, hnone]
    · simp [World.emit]
  · intro c hsome hopen hroom
    refine ⟨((w.emit (.call ci.f ci.args)).setChan c { w.chans c with
        buf := (w.chans c).buf ++ [{ ret := .nil, err := some (.fault r), cb := ci.cb }] }).emit
      (.logError (if cfg.LenStackBuf > 0 then .faultStack r cfg.stack else .fault r)),
      ?_, rfl, ?_, ?_, ?_⟩
    · simp [Server.Exec, hexec, Server.execRecover, Server.ret, hsome, Chan.send, World.emit,
        hopen, hroom]
    · simp [World.emit, World.setChan]
    · intro c' hc'
      simp [World.emit, World.setChan, hc']
    · simp [World.emit, World.setChan]

theorem exec_contains_fault_witness :
    ∃ w', Server.Exec Demo.cfg Demo.world
        { f := .f1 Demo.boom, args := [], chanRet := some 0, cb := none } = .returned w' () ∧
      w'.srv = Demo.world.srv ∧
      w'.chans 0 = { Demo.world.chans 0 with
        buf := (Demo.world.chans 0).buf ++
          [{ ret := .nil, err := some (.fault "boom"), cb := none }] } ∧
      (∀ c', c' ≠ 0 → w'.chans c' = Demo.world.chans c') ∧
      w'.trace = Demo.world.trace ++ [.call (.f1 Demo.boom) [],
        .logError (if Demo.cfg.LenStackBuf > 0 then .faultStack "boom" Demo.cfg.stack
          else .fault "boom")] :=
  (exec_contains_fault Demo.cfg Demo.world
    { f := .f1 Demo.boom, args := [], chanRet := some 0, cb := none } "boom" rfl).2.2
    0 rfl rfl (by decide)

/-! ## go: theorems -/

/-- C9. Task completion yields its callback: `Go(f, cb)` raises the in-flight counter
by exactly one and starts one goroutine for `(f, cb)`, touching nothing else.  When
that goroutine runs, on any state whose callback queue is not closed, no panic leaves
it, whether `f` returns or faults, and exactly the item `cb` is handed to the queue:
appended to the buffer when there is room (the goroutine then ends, a fault of `f`
having been logged), or held by the goroutine parked in the send when the queue is
full (it ends the same way once the owner has received).  The counter is not touched
by the goroutine. -/
theorem go_task_yields_callback (cfg : Conf) (w : GoWorld) (f : Func) (cb : Option Func) :
    (Go.Go w f cb).g.pendingGo = w.g.pendingGo + 1 ∧
    (Go.Go w f cb).g.ChanCb = w.g.ChanCb ∧
    (Go.Go w f cb).tasks = w.tasks ++ [(f, cb)] ∧
    (Go.Go w f cb).trace = w.trace ∧
    ∀ (w2 : GoWorld) (i : Nat), w2.tasks[i]? = some (f, cb) →
      w2.g.ChanCb.closed = false →
      (∀ w' p, Go.work cfg w2 i ≠ .panicked w' p) ∧
      (w2.g.ChanCb.buf.length < w2.g.ChanCb.cap →
        Go.work cfg w2 i = .returned
          { g := { ChanCb := { w2.g.ChanCb with buf := w2.g.ChanCb.buf ++ [cb] }
                   pendingGo := w2.g.pendingGo }
            tasks := w2.tasks.eraseIdx i
            trace := w2.trace ++ .ran f :: recoverLog cfg f } ()) ∧
      (w2.g.ChanCb.cap ≤ w2.g.ChanCb.buf.length →
        Go.work cfg w2 i = .blocked
          { g := { ChanCb := { w2.g.ChanCb with sendq := w2.g.ChanCb.sendq ++ [cb] }
                   pendingGo := w2.g.pendingGo }
            tasks := w2.tasks.eraseIdx i
            trace := w2.trace ++ [.ran f] } ∧
        (Go.resume cfg (Go.work cfg w2 i).state f).trace =
          w2.trace ++ .ran f :: recoverLog cfg f) := by
  refine ⟨rfl, rfl, rfl, rfl, ?_⟩
  intro w2 i htask hopen
  have hfull : w2.g.ChanCb.cap ≤ w2.g.ChanCb.buf.length →
      Go.work cfg w2 i = .blocked
          { g := { ChanCb := { w2.g.ChanCb with sendq := w2.g.ChanCb.sendq ++ [cb] }
                   pendingGo := w2.g.pendingGo }
            tasks := w2.tasks.eraseIdx i
            trace := w2.trace ++ [.ran f] } := by
    intro h
    simp [Go.work, htask, Chan.send, hopen, Nat.not_lt.mpr h]
  have hroom : w2.g.ChanCb.buf.length < w2.g.ChanCb.cap →
      Go.work cfg w2 i = .returned
          { g := { ChanCb := { w2.g.ChanCb with buf := w2.g.ChanCb.buf ++ [cb] }
                   pendingGo := w2.g.pendingGo }
            tasks := w2.tasks.eraseIdx i
            trace := w2.trace ++ .ran f :: recoverLog cfg f } () := by
    intro h
    simp [Go.work, htask, Chan.send, hopen, h]
  refine ⟨?_, hroom, ?_⟩
  · intro w' p h
    by_cases hlt : w2.g.ChanCb.buf.length < w2.g.ChanCb.cap
    · rw [hroom hlt] at h
      cases h
    · rw [hfull (Nat.le_of_not_lt hlt)] at h
      cases h
  · intro h
    refine ⟨hfull h, ?_⟩
    rw [hfull h]
    simp [Go.resume, Outcome.state]

theorem go_task_yields_callback_witness :
    Go.work Demo.cfg Demo.goWorld 1 = .returned
      { g := { ChanCb := { Demo.goWorld.g.ChanCb with buf := Demo.goWorld.g.ChanCb.buf ++ [none] }
               pendingGo := Demo.goWorld.g.pendingGo }
        tasks := Demo.goWorld.tasks.eraseIdx 1
        trace := Demo.goWorld.trace ++ .ran Demo.work2 :: recoverLog Demo.cfg Demo.work2 } () :=
  ((go_task_yields_callback Demo.cfg Demo.goWorld Demo.work2 none).2.2.2.2
    Demo.goWorld 1 rfl rfl).2.1 (by decide)

theorem LinearContext.step_inv (cfg : Conf) (w : LinearWorld) (s : LinearStep)
    (h : w.Inv) :
    (LinearContext.step cfg w s).Inv ∧
    (LinearContext.step cfg w s).order = w.order ++ s.submitted := by
  obtain ⟨hcr, hcl, hlen, hpark⟩ := h
  cases s with
  | submit f cb =>
    simp only [LinearContext.step, hcr, LinearContext.Go, Bool.false_eq_true, if_false]
    refine ⟨⟨rfl, hcl, by simp [hlen], hpark⟩, ?_⟩
    simp [LinearWorld.order, LinearWorld.enqueued, LinearStep.submitted]
  | work i =>
    by_cases hen : (w.crashed || w.parked.isSome || !(w.waiting.contains i)) = true
    · simp only [LinearContext.step, hen, if_true]
      exact ⟨⟨hcr, hcl, hlen, hpark⟩, by simp [LinearStep.submitted]⟩
    · simp only [LinearContext.step, hen, if_false]
      simp only [Bool.or_eq_true, Bool.not_eq_true', not_or, Bool.not_eq_true,
        Bool.not_eq_false] at hen
      obtain ⟨⟨_, hp⟩, hmem⟩ := hen
      have hp' : w.parked = none := by
        cases hw : w.parked with
        | none => rfl
        | some f => simp [hw] at hp
      have hmem' : i ∈ w.waiting := by simpa using hmem
      rw [hp'] at hpark
      simp only at hpark
      have hlen' : (w.waiting.erase i).length + 1 = w.linearGo.length := by
        rw [List.length_erase_of_mem hmem', ← hlen]
        have : 0 < w.waiting.length := List.length_pos_of_mem hmem'
        omega
      cases hq : w.linearGo with
      | nil => simp [hq] at hlen'
      | cons e rest =>
        rw [hq] at hlen'
        simp only [List.length_cons, Nat.add_right_cancel_iff] at hlen'
        by_cases hroom : w.g.ChanCb.buf.length < w.g.ChanCb.cap
        · simp only [LinearContext.worker, hq, Chan.send, hcl, hroom, if_true,
            Bool.false_eq_true, if_false]
          refine ⟨⟨hcr, rfl, hlen', ?_⟩, ?_⟩
          · simp [hp', hpark]
          · simp [LinearWorld.order, LinearWorld.enqueued, Chan.pending, hq, hpark,
              LinearStep.submitted]
        · simp only [LinearContext.worker, hq, Chan.send, hcl, hroom, if_false,
            Bool.false_eq_true]
          refine ⟨⟨hcr, rfl, hlen', ?_⟩, ?_⟩
          · simp [hpark]
          · simp [LinearWorld.order, LinearWorld.enqueued, Chan.pending, hq, hpark,
              LinearStep.submitted]
  | recv =>
    obtain ⟨g, linearGo, waiting, spawned, parked, received, crashed, trace⟩ := w
    obtain ⟨⟨cap, buf, sendq, closed⟩, pendingGo⟩ := g
    simp only at hcr hcl hlen hpark
    subst hcr hcl
    simp only [LinearContext.step, Bool.false_eq_true, if_false]
    cases parked with
    | none =>
      simp only at hpark
      subst hpark
      cases buf with
      | nil =>
        simp only [Chan.recv, Bool.false_eq_true, if_false]
        exact ⟨⟨rfl, rfl, hlen, rfl⟩, by simp [LinearStep.submitted]⟩
      | cons v rest =>
        simp only [Chan.recv]
        exact ⟨⟨rfl, rfl, hlen, rfl⟩,
          by simp [LinearWorld.order, LinearWorld.enqueued, Chan.pending, LinearStep.submitted]⟩
    | some f =>
      obtain ⟨s0, hs0⟩ := hpark
      subst hs0
      cases buf with
      | nil =>
        simp only [Chan.recv]
        exact ⟨⟨rfl, rfl, hlen, rfl⟩,
          by simp [LinearWorld.order, LinearWorld.enqueued, Chan.pending, LinearStep.submitted]⟩
      | cons v rest =>
        simp only [Chan.recv]
        exact ⟨⟨rfl, rfl, hlen, rfl⟩,
          by simp [LinearWorld.order, LinearWorld.enqueued, Chan.pending, LinearStep.submitted]⟩

theorem submissions_cons (s : LinearStep) (rest : List LinearStep) :
    submissions (s :: rest) = s.submitted ++ submissions rest := by
  cases s <;> simp [submissions, LinearStep.submitted]

theorem LinearContext.run_inv (cfg : Conf) (steps : List LinearStep) : ∀ w : LinearWorld,
    w.Inv → (LinearContext.run cfg w steps).Inv ∧
      (LinearContext.run cfg w steps).order = w.order ++ submissions steps := by
  induction steps with
  | nil =>
    intro w h
    exact ⟨h, by simp [LinearContext.run, submissions]⟩
  | cons s rest ih =>
    intro w h
    obtain ⟨h1, h2⟩ := LinearContext.step_inv cfg w s h
    obtain ⟨h3, h4⟩ := ih _ h1
    refine ⟨by simpa [LinearContext.run] using h3, ?_⟩
    simp only [LinearContext.run, List.foldl_cons] at h4 ⊢
    rw [h4, h2, submissions_cons, List.append_assoc]

/-- C6. Ordered dispatch: start from a fresh dispatcher `New(l)` and its
`LinearContext`, and let submissions, goroutines (in any order of acquiring the
execution lock) and owner receives interleave in any way.  In the state reached, the
callbacks sent on the callback queue so far (received by the owner or still pending
there) followed by the callbacks of the entries still queued are exactly the submitted
callbacks in submission order; no goroutine has crashed and every queued entry has its
waiting goroutine.  Hence what the owner has received is an initial part of the
submission sequence, and all of it once the ordered queue and the channel are empty. -/
theorem linear_ordered_dispatch (cfg : Conf) (l : Nat) (steps : List LinearStep) :
    (LinearContext.run cfg (New l).NewLinearContext steps).enqueued ++
        (LinearContext.run cfg (New l).NewLinearContext steps).linearGo.map (fun e => e.cb) =
      submissions steps ∧
    (LinearContext.run cfg (New l).NewLinearContext steps).crashed = false ∧
    (LinearContext.run cfg (New l).NewLinearContext steps).waiting.length =
      (LinearContext.run cfg (New l).NewLinearContext steps).linearGo.length ∧
    (∃ later, (LinearContext.run cfg (New l).NewLinearContext steps).received ++ later =
      submissions steps) ∧
    ((LinearContext.run cfg (New l).NewLinearContext steps).linearGo = [] →
      (LinearContext.run cfg (New l).NewLinearContext steps).g.ChanCb.pending = [] →
      (LinearContext.run cfg (New l).NewLinearContext steps).received = submissions steps) := by
  have hinit : (New l).NewLinearContext.Inv := by
    simp [LinearWorld.Inv, Go.NewLinearContext, New, Chan.make]
  obtain ⟨⟨hcr, _, hlen, _⟩, hord⟩ := LinearContext.run_inv cfg steps _ hinit
  have hord' : (LinearContext.run cfg (New l).NewLinearContext steps).order =
      submissions steps := by
    rw [hord]
    simp [LinearWorld.order, LinearWorld.enqueued, Go.NewLinearContext, New, Chan.make,
      Chan.pending]
  refine ⟨hord', hcr, hlen,
    ⟨(LinearContext.run cfg (New l).NewLinearContext steps).g.ChanCb.pending ++
      (LinearContext.run cfg (New l).NewLinearContext steps).linearGo.map (fun e => e.cb), ?_⟩, ?_⟩
  · rw [← hord']
    simp only [LinearWorld.order, LinearWorld.enqueued, List.append_assoc]
  · intro hq hp
    rw [← hord']
    simp [LinearWorld.order, LinearWorld.enqueued, hq, hp]

theorem linear_ordered_dispatch_witness :
    (LinearContext.run Demo.cfg (New 1).NewLinearContext Demo.schedule).received =
      [some Demo.done1, some Demo.done2, none] :=
  (linear_ordered_dispatch Demo.cfg 1 Demo.schedule).2.2.2.2 (by decide) (by decide)

/-- C14 (as stated, refuted). With one task outstanding, a callback that calls `Idle()`
sees a dispatcher that is not idle: `Cb` runs it with the counter still at 1, not in
the decremented state. -/
theorem go_cb_runs_before_decrement :
    Demo.lastOne.pendingGo = 1 ∧
    (Go.Cb Demo.cfg Demo.lastOne [] (some Demo.probe)).2 = [.ran { tag := 0, fault := none }] ∧
    (Go.Cb Demo.cfg Demo.lastOne [] (some Demo.probe)).2 ≠
      [.ran (Demo.probe { Demo.lastOne with pendingGo := Demo.lastOne.pendingGo - 1 })] := by
  refine ⟨rfl, by decide, by decide⟩

/-- C14 (amended). For a dispatcher whose in-flight counter is `n > 0`, `Cb(cb)` invokes
`cb`, when it is not nil, in the state in which `Cb` was entered, the counter still
being `n` (so `Idle()` called from inside the callback is false, also in the last
outstanding callback), and decrements the counter afterwards, in its deferred
function; `Cb` always returns, with the counter at `n - 1` and the callback queue
untouched, whether `cb` is nil (nothing is called), returns or faults (the fault is
logged, not raised). -/
theorem go_cb_runs_then_decrements (cfg : Conf) (g : Leaf.Go) (trace : List Ev)
    (cb : Option (Leaf.Go → Func)) (hn : 0 < g.pendingGo) :
    (Go.Cb cfg g trace cb).1.pendingGo = g.pendingGo - 1 ∧
    (Go.Cb cfg g trace cb).1.ChanCb = g.ChanCb ∧
    g.Idle = false ∧
    (cb = none → (Go.Cb cfg g trace cb).2 = trace) ∧
    (∀ c, cb = some c →
      (Go.Cb cfg g trace cb).2 = trace ++ Ev.ran (c g) :: recoverLog cfg (c g)) := by
  have hidle : g.Idle = false := by
    simp only [Go.Idle, beq_eq_false_iff_ne, ne_eq]
    omega
  cases cb with
  | none => exact ⟨rfl, rfl, hidle, (fun _ => rfl), (fun c h => by cases h)⟩
  | some c =>
    refine ⟨rfl, rfl, hidle, (fun h => by cases h), ?_⟩
    intro c' h
    cases h
    rfl

theorem go_cb_runs_then_decrements_witness :
    (Go.Cb Demo.cfg Demo.lastOne [] (some Demo.probe)).1.pendingGo = 1 - 1 ∧
    Demo.lastOne.Idle = false ∧
    (Go.Cb Demo.cfg Demo.lastOne [] (some Demo.probe)).2 =
      [] ++ Ev.ran (Demo.probe Demo.lastOne) :: recoverLog Demo.cfg (Demo.probe Demo.lastOne) :=
  have h := go_cb_runs_then_decrements Demo.cfg Demo.lastOne [] (some Demo.probe) (by decide)
  ⟨h.1, h.2.2.1, h.2.2.2.2 Demo.probe rfl⟩

/-! ## timer: theorems -/

theorem Chan.recv_value {α : Type} (ch : Chan α) (x : α) (ch' : Chan α)
    (h : ch.recv = .value x ch') : ch.pending = x :: ch'.pending := by
  obtain ⟨cap, buf, sendq, closed⟩ := ch
  cases buf with
  | nil =>
    cases sendq with
    | nil =>
      simp only [Chan.recv] at h
      split at h <;> cases h
    | cons s ss =>
      simp only [Chan.recv] at h
      cases h
      simp [Chan.pending]
  | cons b rest =>
    cases sendq with
    | nil =>
      simp only [Chan.recv] at h
      cases h
      simp [Chan.pending]
    | cons s ss =>
      simp only [Chan.recv] at h
      cases h
      simp [Chan.pending]

theorem Chan.send_pending {α : Type} (ch : Chan α) (v : α) (ch' : Chan α)
    (h : ch.send v = .sent ch' ∨ ch.send v = .parked ch') :
    ∀ j, j ∈ ch'.pending → j ∈ ch.pending ∨ j = v := by
  intro j hj
  unfold Chan.send at h
  split at h
  · rcases h with h | h <;> cases h
  · split at h
    · rcases h with h | h
      · cases h
        simp only [Chan.pending, List.mem_append, List.mem_singleton] at hj ⊢
        tauto
      · cases h
    · rcases h with h | h
      · cases h
      · cases h
        simp only [Chan.pending, List.mem_append, List.mem_singleton] at hj ⊢
        tauto


theorem Timer.run_cleared (cfg : Conf) (ops : List TimerOp) : ∀ (t : Timer) (tr : List Ev),
    t.cb = none → (Timer.run cfg (t, tr) ops).2 = tr ∧ (Timer.run cfg (t, tr) ops).1.cb = none := by
  induction ops with
  | nil =>
    intro t tr h
    exact ⟨rfl, h⟩
  | cons op rest ih =>
    intro t tr h
    cases op with
    | Cb =>
      have hstep : Timer.apply cfg (t, tr) .Cb = ({ t with cb := none }, tr) := by
        simp [Timer.apply, Timer.Cb, h]
      simp only [Timer.run, List.foldl_cons, hstep]
      exact ih _ tr rfl
    | Stop =>
      simp only [Timer.run, List.foldl_cons, Timer.apply]
      exact ih _ tr rfl

theorem allCalls_recoverLog (cfg : Conf) (f : Func) : allCalls (recoverLog cfg f) = 0 := by
  unfold recoverLog allCalls
  cases f.fault <;> simp

theorem ran_not_mem_recoverLog (cfg : Conf) (f g : Func) : Ev.ran g ∉ recoverLog cfg f := by
  unfold recoverLog
  cases f.fault <;> simp

/-- C10. Timer callbacks run at most once: on a handle armed with callback `cb` (any
handle state, with an empty trace), whatever sequence of `Cb()` and `Stop()` calls is
made, at most one user call is recorded and it is a call of `cb`; after the first call
of the sequence, be it `Cb()` or `Stop()`, the callback reference is nil; `Cb()` on a
handle whose reference is nil changes nothing and calls nothing; and `Cb()` on a
handle holding `f` returns with the reference cleared, one call of `f` recorded and
its fault, if any, logged rather than raised. -/
theorem timer_cb_at_most_once (cfg : Conf) (t0 : Timer) (ops : List TimerOp) :
    allCalls (Timer.run cfg (t0, []) ops).2 ≤ 1 ∧
    (∀ f, Ev.ran f ∈ (Timer.run cfg (t0, []) ops).2 → t0.cb = some f) ∧
    (ops ≠ [] → (Timer.run cfg (t0, []) ops).1.cb = none) ∧
    (∀ (t : Timer) (tr : List Ev), t.cb = none → Timer.Cb cfg t tr = (t, tr)) ∧
    (∀ (t : Timer) (tr : List Ev) (f : Func), t.cb = some f →
      (Timer.Cb cfg t tr).1.cb = none ∧
      (Timer.Cb cfg t tr).2 = tr ++ .ran f :: recoverLog cfg f) := by
  refine ⟨?_, ?_, ?_, ?_, ?_⟩
  · cases ops with
    | nil => simp [Timer.run, allCalls]
    | cons op rest =>
      cases op with
      | Cb =>
        cases hcb : t0.cb with
        | none =>
          rw [(Timer.run_cleared cfg (.Cb :: rest) t0 [] hcb).1]
          simp [allCalls]
        | some f =>
          have hstep : Timer.apply cfg (t0, []) .Cb =
              ({ t0 with cb := none }, .ran f :: recoverLog cfg f) := by
            simp [Timer.apply, Timer.Cb, hcb]
          simp only [Timer.run, List.foldl_cons, hstep]
          have := (Timer.run_cleared cfg rest { t0 with cb := none }
            (.ran f :: recoverLog cfg f) rfl).1
          simp only [Timer.run] at this
          rw [this]
          have h0 := allCalls_recoverLog cfg f
          simp only [allCalls] at h0 ⊢
          simp [List.filter_cons, h0]
      | Stop =>
        simp only [Timer.run, List.foldl_cons, Timer.apply]
        have := (Timer.run_cleared cfg rest (Timer.Stop t0) [] rfl).1
        simp only [Timer.run] at this
        rw [this]
        simp [allCalls]
  · intro f hf
    cases ops with
    | nil => simp [Timer.run] at hf
    | cons op rest =>
      cases op with
      | Cb =>
        cases hcb : t0.cb with
        | none =>
          rw [(Timer.run_cleared cfg (.Cb :: rest) t0 [] hcb).1] at hf
          simp at hf
        | some g =>
          have hstep : Timer.apply cfg (t0, []) .Cb =
              ({ t0 with cb := none }, .ran g :: recoverLog cfg g) := by
            simp [Timer.apply, Timer.Cb, hcb]
          simp only [Timer.run, List.foldl_cons, hstep] at hf
          have := (Timer.run_cleared cfg rest { t0 with cb := none }
            (.ran g :: recoverLog cfg g) rfl).1
          simp only [Timer.run] at this
          rw [this] at hf
          rcases List.mem_cons.mp hf with h | h
          · cases h
            rfl
          · exact absurd h (ran_not_mem_recoverLog cfg g f)
      | Stop =>
        simp only [Timer.run, List.foldl_cons, Timer.apply] at hf
        have := (Timer.run_cleared cfg rest (Timer.Stop t0) [] rfl).1
        simp only [Timer.run] at this
        rw [this] at hf
        simp at hf
  · intro hne
    cases ops with
    | nil => exact absurd rfl hne
    | cons op rest =>
      cases op with
      | Cb =>
        simp only [Timer.run, List.foldl_cons, Timer.apply]
        have h1 : (Timer.Cb cfg t0 []).1.cb = none := by
          unfold Timer.Cb
          cases t0.cb <;> rfl
        have := (Timer.run_cleared cfg rest (Timer.Cb cfg t0 []).1 (Timer.Cb cfg t0 []).2 h1).2
        simpa [Timer.run] using this
      | Stop =>
        simp only [Timer.run, List.foldl_cons, Timer.apply]
        have := (Timer.run_cleared cfg rest (Timer.Stop t0) [] rfl).2
        simpa [Timer.run] using this
  · intro t tr h
    obtain ⟨b, cb⟩ := t
    simp only at h
    simp [Timer.Cb, h]
  · intro t tr f h
    simp [Timer.Cb, h]

theorem timer_cb_at_most_once_witness :
    (Timer.run Demo.cfg (Dispatcher.AfterFunc (some Demo.work2), [])
      [.Cb, .Cb, .Stop, .Cb]).1.cb = none ∧
    allCalls (Timer.run Demo.cfg (Dispatcher.AfterFunc (some Demo.work2), [])
      [.Cb, .Cb, .Stop, .Cb]).2 ≤ 1 :=
  have h := timer_cb_at_most_once Demo.cfg (Dispatcher.AfterFunc (some Demo.work2))
    [.Cb, .Cb, .Stop, .Cb]
  ⟨h.2.2.1 (by decide), h.1⟩

/-! ### cron -/

theorem CronWorld.step_allDead (cfg : Conf) (cronExpr : CronExpr) (w : CronWorld)
    (s : CronStep) (h : w.AllDead) :
    (CronWorld.step cfg cronExpr w s).AllDead ∧
    (CronWorld.step cfg cronExpr w s).trace = w.trace ∧
    (CronWorld.step cfg cronExpr w s).count = w.count := by
  cases s with
  | fire i =>
    have hstep : CronWorld.step cfg cronExpr w (.fire i) = w := by
      simp [CronWorld.step, (h i).1]
    rw [hstep]
    exact ⟨h, rfl, rfl⟩
  | deliver now st =>
    simp only [CronWorld.step]
    split
    · rename_i i ch _
      simp only [CronWorld.Cb, (h i).2]
      refine ⟨?_, rfl, rfl⟩
      intro j
      by_cases hj : j = i
      · subst hj
        simp [CronWorld.setTimer, (h j).1]
      · simp [CronWorld.setTimer, hj, h j]
    · exact ⟨h, rfl, rfl⟩
  | stop =>
    simp only [CronWorld.step, Cron.Stop]
    split
    · exact ⟨h, rfl, rfl⟩
    · rename_i i _
      refine ⟨?_, rfl, rfl⟩
      intro j
      by_cases hj : j = i
      · subst hj
        simp [CronWorld.setTimer, Timer.Stop]
      · simp [CronWorld.setTimer, hj, h j]

theorem CronWorld.run_allDead (cfg : Conf) (cronExpr : CronExpr) (steps : List CronStep) :
    ∀ w : CronWorld, w.AllDead →
      (CronWorld.run cfg cronExpr w steps).AllDead ∧
      (CronWorld.run cfg cronExpr w steps).trace = w.trace ∧
      (CronWorld.run cfg cronExpr w steps).count = w.count := by
  induction steps with
  | nil => intro w h; exact ⟨h, rfl, rfl⟩
  | cons s rest ih =>
    intro w h
    obtain ⟨h1, h2, h3⟩ := CronWorld.step_allDead cfg cronExpr w s h
    obtain ⟨h4, h5, h6⟩ := ih _ h1
    simp only [CronWorld.run, List.foldl_cons] at h4 h5 h6 ⊢
    exact ⟨h4, h5.trans h2, h6.trans h3⟩

theorem Cron.Stop_allDead (f : Func) (w : CronWorld) (h : w.Inv f) :
    (Cron.Stop w).AllDead ∧ (Cron.Stop w).trace = w.trace ∧ (Cron.Stop w).count = w.count := by
  obtain ⟨h1, _, _, _⟩ := h
  unfold Cron.Stop
  cases hc : w.c with
  | none =>
    refine ⟨?_, rfl, rfl⟩
    intro i
    exact h1 i (by simp [hc])
  | some i =>
    refine ⟨?_, rfl, rfl⟩
    intro j
    by_cases hj : j = i
    · subst hj
      simp [CronWorld.setTimer, Timer.Stop]
    · have := h1 j (by rw [hc]; intro e; exact hj (Option.some.inj e).symm)
      simpa [CronWorld.setTimer, hj] using this

theorem CronWorld.AllDead.toInv (f : Func) (w : CronWorld) (h : w.AllDead)
    (h2 : ∀ i, i ∈ w.ChanTimer.pending → i < w.count)
    (h4 : ∀ i, w.count ≤ i → w.c ≠ some i) : w.Inv f :=
  ⟨fun i _ => h i, fun i hi => ⟨(h i).1, h2 i hi⟩, fun i => Or.inl (h i).2, h4⟩

/-- Delivery of a fired handle that still holds its callback: the user callback runs
once; the state stays well formed; without a next occurrence, or when the callback
stops the Cron, nothing is left armed. -/
theorem CronWorld.deliver_live (cfg : Conf) (cronExpr : CronExpr) (f : Func) (w : CronWorld)
    (i : Nat) (ch : Chan Nat) (now : Time) (st : Bool) (h : w.Inv f)
    (hrecv : w.ChanTimer.recv = .value i ch) (hcb : (w.timers i).cb ≠ none) :
    (CronWorld.step cfg cronExpr w (.deliver now st)).trace =
      w.trace ++ Ev.ran f :: recoverLog cfg f ∧
    (CronWorld.step cfg cronExpr w (.deliver now st)).Inv f ∧
    (cronExpr.Next now = none →
      (CronWorld.step cfg cronExpr w (.deliver now st)).count = w.count ∧
      (CronWorld.step cfg cronExpr w (.deliver now st)).AllDead) ∧
    (st = true → (CronWorld.step cfg cronExpr w (.deliver now st)).AllDead) := by
  obtain ⟨h1, h2, h3, h4⟩ := h
  have hp := Chan.recv_value _ _ _ hrecv
  have hcbf : (w.timers i).cb = some f := by
    rcases h3 i with h | h
    · exact absurd h hcb
    · exact h
  have hc : w.c = some i := by
    by_contra hne
    exact hcb (h1 i hne).2
  have hti : (w.timers i).t = false ∧ i < w.count := h2 i (by rw [hp]; simp)
  have hdead : ∀ j, j ≠ i → (w.timers j).t = false ∧ (w.timers j).cb = none := by
    intro j hj
    exact h1 j (by rw [hc]; intro e; exact hj (Option.some.inj e).symm)
  have hpend : ∀ j, j ∈ ch.pending → (w.timers j).t = false ∧ j < w.count := by
    intro j hj
    exact h2 j (by rw [hp]; exact List.mem_cons_of_mem _ hj)
  have hne : i ≠ w.count := Nat.ne_of_lt hti.2
  cases hnext : cronExpr.Next now with
  | none =>
    have hall : ∀ b, (CronWorld.step cfg cronExpr w (.deliver now b)).AllDead := by
      intro b j
      by_cases hj : j = i
      · subst hj
        cases b <;>
          simp [CronWorld.step, hrecv, CronWorld.Cb, hcbf, Dispatcher.cronCb, hnext, Cron.Stop,
            hc, CronWorld.setTimer, Timer.Stop, hti.1]
      · cases b <;>
          simp [CronWorld.step, hrecv, CronWorld.Cb, hcbf, Dispatcher.cronCb, hnext, Cron.Stop,
            hc, CronWorld.setTimer, Timer.Stop, hj, hdead j hj]
    have hcount : (CronWorld.step cfg cronExpr w (.deliver now st)).count = w.count := by
      cases st <;>
        simp [CronWorld.step, hrecv, CronWorld.Cb, hcbf, Dispatcher.cronCb, hnext, Cron.Stop,
          hc, CronWorld.setTimer]
    have hchan : (CronWorld.step cfg cronExpr w (.deliver now st)).ChanTimer = ch := by
      cases st <;>
        simp [CronWorld.step, hrecv, CronWorld.Cb, hcbf, Dispatcher.cronCb, hnext, Cron.Stop,
          hc, CronWorld.setTimer]
    have hcc : (CronWorld.step cfg cronExpr w (.deliver now st)).c = some i := by
      cases st <;>
        simp [CronWorld.step, hrecv, CronWorld.Cb, hcbf, Dispatcher.cronCb, hnext, Cron.Stop,
          hc, CronWorld.setTimer]
    refine ⟨?_, ?_, fun _ => ⟨hcount, hall st⟩, fun _ => hall st⟩
    · cases st <;>
        simp [CronWorld.step, hrecv, CronWorld.Cb, hcbf, Dispatcher.cronCb, hnext, Cron.Stop,
          hc, CronWorld.setTimer]
    · refine CronWorld.AllDead.toInv f _ (hall st) ?_ ?_
      · intro j hj
        rw [hchan] at hj
        rw [hcount]
        exact (hpend j hj).2
      · intro j hj
        rw [hcount] at hj
        rw [hcc]
        intro e
        have := Option.some.inj e
        omega
  | some nxt =>
    have hcount : (CronWorld.step cfg cronExpr w (.deliver now st)).count = w.count + 1 := by
      cases st <;>
        simp [CronWorld.step, hrecv, CronWorld.Cb, hcbf, Dispatcher.cronCb, hnext, Cron.Stop,
          CronWorld.arm, CronWorld.setTimer]
    have hchan : (CronWorld.step cfg cronExpr w (.deliver now st)).ChanTimer = ch := by
      cases st <;>
        simp [CronWorld.step, hrecv, CronWorld.Cb, hcbf, Dispatcher.cronCb, hnext, Cron.Stop,
          CronWorld.arm, CronWorld.setTimer]
    have hcc : (CronWorld.step cfg cronExpr w (.deliver now st)).c = some w.count := by
      cases st <;>
        simp [CronWorld.step, hrecv, CronWorld.Cb, hcbf, Dispatcher.cronCb, hnext, Cron.Stop,
          CronWorld.arm, CronWorld.setTimer]
    have hold : ∀ j, j ≠ w.count →
        ((CronWorld.step cfg cronExpr w (.deliver now st)).timers j).t = false ∧
        ((CronWorld.step cfg cronExpr w (.deliver now st)).timers j).cb = none := by
      intro j hjc
      by_cases hj : j = i
      · subst hj
        cases st <;>
          simp [CronWorld.step, hrecv, CronWorld.Cb, hcbf, Dispatcher.cronCb, hnext, Cron.Stop,
            CronWorld.arm, CronWorld.setTimer, Timer.Stop, hti.1, hjc]
      · cases st <;>
          simp [CronWorld.step, hrecv, CronWorld.Cb, hcbf, Dispatcher.cronCb, hnext, Cron.Stop,
            CronWorld.arm, CronWorld.setTimer, Timer.Stop, hj, hjc, hdead j hj]
    have hnew : ((CronWorld.step cfg cronExpr w (.deliver now st)).timers w.count).cb = none ∨
        ((CronWorld.step cfg cronExpr w (.deliver now st)).timers w.count).cb = some f := by
      cases st <;>
        simp [CronWorld.step, hrecv, CronWorld.Cb, hcbf, Dispatcher.cronCb, hnext, Cron.Stop,
          CronWorld.arm, CronWorld.setTimer, Timer.Stop, Dispatcher.AfterFunc, hne.symm]
    have hstop : st = true →
        ((CronWorld.step cfg cronExpr w (.deliver now st)).timers w.count).t = false ∧
        ((CronWorld.step cfg cronExpr w (.deliver now st)).timers w.count).cb = none := by
      intro hst
      subst hst
      simp [CronWorld.step, hrecv, CronWorld.Cb, hcbf, Dispatcher.cronCb, hnext, Cron.Stop,
        CronWorld.arm, CronWorld.setTimer, Timer.Stop, hne.symm]
    refine ⟨?_, ⟨?_, ?_, ?_, ?_⟩, (fun h => by cases h), ?_⟩
    · cases st <;>
        simp [CronWorld.step, hrecv, CronWorld.Cb, hcbf, Dispatcher.cronCb, hnext, Cron.Stop,
          CronWorld.arm, CronWorld.setTimer]
    · intro j hj
      rw [hcc] at hj
      exact hold j (fun e => hj (by rw [e]))
    · intro j hj
      rw [hchan] at hj
      have := hpend j hj
      rw [hcount]
      exact ⟨(hold j (Nat.ne_of_lt this.2)).1, by omega⟩
    · intro j
      by_cases hj : j = w.count
      · subst hj
        exact hnew
      · exact Or.inl (hold j hj).2
    · intro j hj
      rw [hcount] at hj
      rw [hcc]
      intro e
      have := Option.some.inj e
      omega
    · intro hst j
      by_cases hj : j = w.count
      · subst hj
        exact hstop hst
      · exact hold j hj

theorem Cron.Stop_frame (w : CronWorld) :
    (Cron.Stop w).ChanTimer = w.ChanTimer ∧ (Cron.Stop w).c = w.c ∧
    (Cron.Stop w).count = w.count ∧ (Cron.Stop w).trace = w.trace := by
  unfold Cron.Stop
  split <;> simp_all [CronWorld.setTimer]

theorem CronWorld.step_keeps_inv (cfg : Conf) (cronExpr : CronExpr) (f : Func) (w : CronWorld)
    (s : CronStep) (h : w.Inv f) : (CronWorld.step cfg cronExpr w s).Inv f := by
  cases s with
  | fire i =>
    obtain ⟨h1, h2, h3, h4⟩ := h
    by_cases ht : (w.timers i).t = true
    · have hc : w.c = some i := by
        by_contra hne
        have := (h1 i hne).1
        rw [ht] at this
        cases this
      have hlt : i < w.count := by
        by_contra hge
        exact h4 i (Nat.le_of_not_lt hge) hc
      have key : ∀ ch, (w.ChanTimer.send i = .sent ch ∨ w.ChanTimer.send i = .parked ch) →
          CronWorld.Inv f { (w.setTimer i { w.timers i with t := false }) with ChanTimer := ch } := by
        intro ch hsend
        refine ⟨?_, ?_, ?_, h4⟩
        · intro j hj
          have hji : j ≠ i := by
            intro e
            subst e
            exact hj hc
          simpa [CronWorld.setTimer, hji] using h1 j hj
        · intro j hj
          rcases Chan.send_pending _ _ _ hsend j hj with hm | hm
          · by_cases hji : j = i
            · subst hji
              exact ⟨by simp [CronWorld.setTimer], hlt⟩
            · simpa [CronWorld.setTimer, hji] using h2 j hm
          · subst hm
            exact ⟨by simp [CronWorld.setTimer], hlt⟩
        · intro j
          by_cases hji : j = i
          · subst hji
            simpa [CronWorld.setTimer] using h3 j
          · simpa [CronWorld.setTimer, hji] using h3 j
      simp only [CronWorld.step, ht, if_true]
      cases hs : w.ChanTimer.send i with
      | sent ch => exact key ch (Or.inl hs)
      | parked ch => exact key ch (Or.inr hs)
      | panic => exact ⟨h1, h2, h3, h4⟩
    · have hstep : CronWorld.step cfg cronExpr w (.fire i) = w := by
        simp [CronWorld.step, ht]
      rw [hstep]
      exact ⟨h1, h2, h3, h4⟩
  | deliver now st =>
    cases hrecv : w.ChanTimer.recv with
    | value i ch =>
      by_cases hcb : (w.timers i).cb = none
      · obtain ⟨h1, h2, h3, h4⟩ := h
        have hp := Chan.recv_value _ _ _ hrecv
        have hstep : CronWorld.step cfg cronExpr w (.deliver now st) =
            CronWorld.setTimer { w with ChanTimer := ch } i { w.timers i with cb := none } := by
          simp [CronWorld.step, hrecv, CronWorld.Cb, hcb]
        rw [hstep]
        have ht : ({ w.timers i with cb := none } : Timer) = w.timers i := by
          rcases hwt : w.timers i with ⟨t, cb⟩
          rw [hwt] at hcb
          simp only at hcb
          simp [hcb]
        have hsame : ∀ j, (if j = i then ({ w.timers i with cb := none } : Timer)
            else w.timers j) = w.timers j := by
          intro j
          by_cases hji : j = i
          · subst hji
            simp [ht]
          · simp [hji]
        refine ⟨?_, ?_, ?_, h4⟩
        · intro j hj
          simp only [CronWorld.setTimer, hsame]
          exact h1 j hj
        · intro j hj
          simp only [CronWorld.setTimer, hsame]
          exact h2 j (by rw [hp]; exact List.mem_cons_of_mem _ hj)
        · intro j
          simp only [CronWorld.setTimer, hsame]
          exact h3 j
      · exact (CronWorld.deliver_live cfg cronExpr f w i ch now st h hrecv hcb).2.1
    | empty =>
      have hstep : CronWorld.step cfg cronExpr w (.deliver now st) = w := by
        simp [CronWorld.step, hrecv]
      rw [hstep]
      exact h
    | closed =>
      have hstep : CronWorld.step cfg cronExpr w (.deliver now st) = w := by
        simp [CronWorld.step, hrecv]
      rw [hstep]
      exact h
  | stop =>
    obtain ⟨hd, _, _⟩ := Cron.Stop_allDead f w h
    obtain ⟨_, h2, _, h4⟩ := h
    obtain ⟨e1, e2, e3, _⟩ := Cron.Stop_frame w
    refine CronWorld.AllDead.toInv f _ hd ?_ ?_
    · intro j hj
      simp only [CronWorld.step] at hj ⊢
      rw [e1] at hj
      rw [e3]
      exact (h2 j hj).2
    · intro j hj
      simp only [CronWorld.step] at hj ⊢
      rw [e3] at hj
      rw [e2]
      exact h4 j hj

theorem CronWorld.run_keeps_inv (cfg : Conf) (cronExpr : CronExpr) (f : Func)
    (steps : List CronStep) : ∀ w : CronWorld, w.Inv f →
      (CronWorld.run cfg cronExpr w steps).Inv f := by
  induction steps with
  | nil => intro w h; exact h
  | cons s rest ih =>
    intro w h
    simpa [CronWorld.run] using ih _ (CronWorld.step_keeps_inv cfg cronExpr f w s h)

theorem Dispatcher.CronFunc_inv (l : Nat) (cronExpr : CronExpr) (now : Time) (f : Func) :
    (Dispatcher.CronFunc (NewDispatcher l) cronExpr now f).Inv f := by
  unfold Dispatcher.CronFunc
  cases cronExpr.Next now with
  | none =>
    refine ⟨?_, ?_, ?_, ?_⟩ <;> simp [NewDispatcher, Chan.make, Chan.pending]
  | some nxt =>
    refine ⟨?_, ?_, ?_, ?_⟩
    · intro i hi
      have : i ≠ 0 := by
        intro e
        subst e
        exact hi rfl
      simp [CronWorld.arm, CronWorld.setTimer, NewDispatcher, this]
    · simp [CronWorld.arm, CronWorld.setTimer, NewDispatcher, Chan.make, Chan.pending]
    · intro i
      by_cases hi : i = 0
      · subst hi
        simp [CronWorld.arm, CronWorld.setTimer, NewDispatcher, Dispatcher.AfterFunc]
      · simp [CronWorld.arm, CronWorld.setTimer, NewDispatcher, hi]
    · intro i hi
      simp only [CronWorld.arm, NewDispatcher, CronWorld.setTimer] at hi ⊢
      intro e
      have := Option.some.inj e
      omega

/-- C11. Cron self-termination.  When the schedule has no occurrence at creation,
`CronFunc` returns a handle without timer, and whatever happens afterwards (`Stop()`
included, which returns) no timer is ever armed and the user callback is never
called.  When a fired handle that still holds its callback is delivered at a time
after which the schedule has no occurrence, the user callback is called once for that
firing, no new timer is made, no handle is left armed or holding a callback, and
whatever happens afterwards (`Stop()` included) the user callback is not called again
and no timer is armed. -/
theorem cron_self_termination (cfg : Conf) (cronExpr : CronExpr) (l : Nat) (now0 : Time)
    (f : Func) :
    (cronExpr.Next now0 = none →
      (Dispatcher.CronFunc (NewDispatcher l) cronExpr now0 f).c = none ∧
      ∀ steps : List CronStep,
        (CronWorld.run cfg cronExpr
          (Dispatcher.CronFunc (NewDispatcher l) cronExpr now0 f) steps).trace = [] ∧
        (CronWorld.run cfg cronExpr
          (Dispatcher.CronFunc (NewDispatcher l) cronExpr now0 f) steps).count = 0 ∧
        (CronWorld.run cfg cronExpr
          (Dispatcher.CronFunc (NewDispatcher l) cronExpr now0 f) steps).AllDead) ∧
    (∀ (pre : List CronStep) (i : Nat) (ch : Chan Nat) (now : Time) (st : Bool),
      (CronWorld.run cfg cronExpr
        (Dispatcher.CronFunc (NewDispatcher l) cronExpr now0 f) pre).ChanTimer.recv =
          .value i ch →
      ((CronWorld.run cfg cronExpr
        (Dispatcher.CronFunc (NewDispatcher l) cronExpr now0 f) pre).timers i).cb ≠ none →
      cronExpr.Next now = none →
      (CronWorld.step cfg cronExpr (CronWorld.run cfg cronExpr
        (Dispatcher.CronFunc (NewDispatcher l) cronExpr now0 f) pre) (.deliver now st)).trace =
        (CronWorld.run cfg cronExpr
          (Dispatcher.CronFunc (NewDispatcher l) cronExpr now0 f) pre).trace ++
          Ev.ran f :: recoverLog cfg f ∧
      (CronWorld.step cfg cronExpr (CronWorld.run cfg cronExpr
        (Dispatcher.CronFunc (NewDispatcher l) cronExpr now0 f) pre) (.deliver now st)).count =
        (CronWorld.run cfg cronExpr
          (Dispatcher.CronFunc (NewDispatcher l) cronExpr now0 f) pre).count ∧
      ∀ post : List CronStep,
        (CronWorld.run cfg cronExpr (CronWorld.step cfg cronExpr (CronWorld.run cfg cronExpr
          (Dispatcher.CronFunc (NewDispatcher l) cronExpr now0 f) pre) (.deliver now st))
          post).trace =
          (CronWorld.run cfg cronExpr
            (Dispatcher.CronFunc (NewDispatcher l) cronExpr now0 f) pre).trace ++
            Ev.ran f :: recoverLog cfg f ∧
        (CronWorld.run cfg cronExpr (CronWorld.step cfg cronExpr (CronWorld.run cfg cronExpr
          (Dispatcher.CronFunc (NewDispatcher l) cronExpr now0 f) pre) (.deliver now st))
          post).count =
          (CronWorld.run cfg cronExpr
            (Dispatcher.CronFunc (NewDispatcher l) cronExpr now0 f) pre).count ∧
        (CronWorld.run cfg cronExpr (CronWorld.step cfg cronExpr (CronWorld.run cfg cronExpr
          (Dispatcher.CronFunc (NewDispatcher l) cronExpr now0 f) pre) (.deliver now st))
          post).AllDead) := by
  constructor
  · intro hnone
    have hinit : Dispatcher.CronFunc (NewDispatcher l) cronExpr now0 f =
        { NewDispatcher l with c := none } := by
      simp [Dispatcher.CronFunc, hnone]
    rw [hinit]
    refine ⟨rfl, ?_⟩
    intro steps
    have hdead : CronWorld.AllDead { NewDispatcher l with c := none } := by
      intro i
      simp [NewDispatcher]
    obtain ⟨h1, h2, h3⟩ := CronWorld.run_allDead cfg cronExpr steps _ hdead
    exact ⟨h2, h3, h1⟩
  · intro pre i ch now st hrecv hcb hnext
    have hinv := CronWorld.run_keeps_inv cfg cronExpr f pre _
      (Dispatcher.CronFunc_inv l cronExpr now0 f)
    obtain ⟨htr, _, hlast, _⟩ :=
      CronWorld.deliver_live cfg cronExpr f _ i ch now st hinv hrecv hcb
    obtain ⟨hcount, hdead⟩ := hlast hnext
    refine ⟨htr, hcount, ?_⟩
    intro post
    obtain ⟨h1, h2, h3⟩ := CronWorld.run_allDead cfg cronExpr post _ hdead
    exact ⟨h2.trans htr, h3.trans hcount, h1⟩

theorem cron_self_termination_witness :
    (CronWorld.run Demo.cfg Demo.never
      (Dispatcher.CronFunc (NewDispatcher 1) Demo.never 0 Demo.work1)
      [.fire 0, .deliver 1 false, .stop, .deliver 2 true]).trace = [] ∧
    (CronWorld.run Demo.cfg Demo.untilTen (CronWorld.step Demo.cfg Demo.untilTen
      (CronWorld.run Demo.cfg Demo.untilTen
        (Dispatcher.CronFunc (NewDispatcher 1) Demo.untilTen 9 Demo.work1) [.fire 0])
      (.deliver 10 false)) [.fire 0, .fire 1, .stop, .deliver 11 false]).trace =
      (CronWorld.run Demo.cfg Demo.untilTen
        (Dispatcher.CronFunc (NewDispatcher 1) Demo.untilTen 9 Demo.work1) [.fire 0]).trace ++
        Ev.ran Demo.work1 :: recoverLog Demo.cfg Demo.work1 :=
  have h := cron_self_termination Demo.cfg Demo.never 1 0 Demo.work1
  have h2 := cron_self_termination Demo.cfg Demo.untilTen 1 9 Demo.work1
  ⟨((h.1 rfl).2 _).1,
   ((h2.2 [.fire 0] 0 { cap := 1, buf := [], sendq := [], closed := false } 10 false
      rfl (by decide) rfl).2.2 _).1⟩

/-- C12. Cron cancellation.  In every state reached from `CronFunc` by firings,
deliveries and `Stop()` calls, an armed timer is the one the Cron handle references.
When the owner calls `Stop()` there (between firings, or while a fired handle is still
queued), no handle is left armed or holding a callback and, whatever happens
afterwards, the user callback is not called and no timer is made.  When instead the
user callback itself calls `Stop()` during a delivery, that delivery calls the user
callback once, leaves nothing armed, and afterwards the same holds. -/
theorem cron_cancellation (cfg : Conf) (cronExpr : CronExpr) (l : Nat) (now0 : Time)
    (f : Func) (pre post : List CronStep) :
    (∀ i, ((CronWorld.run cfg cronExpr
        (Dispatcher.CronFunc (NewDispatcher l) cronExpr now0 f) pre).timers i).t = true →
      (CronWorld.run cfg cronExpr
        (Dispatcher.CronFunc (NewDispatcher l) cronExpr now0 f) pre).c = some i) ∧
    ((Cron.Stop (CronWorld.run cfg cronExpr
        (Dispatcher.CronFunc (NewDispatcher l) cronExpr now0 f) pre)).AllDead ∧
      (CronWorld.run cfg cronExpr (Cron.Stop (CronWorld.run cfg cronExpr
        (Dispatcher.CronFunc (NewDispatcher l) cronExpr now0 f) pre)) post).trace =
        (CronWorld.run cfg cronExpr
          (Dispatcher.CronFunc (NewDispatcher l) cronExpr now0 f) pre).trace ∧
      (CronWorld.run cfg cronExpr (Cron.Stop (CronWorld.run cfg cronExpr
        (Dispatcher.CronFunc (NewDispatcher l) cronExpr now0 f) pre)) post).count =
        (CronWorld.run cfg cronExpr
          (Dispatcher.CronFunc (NewDispatcher l) cronExpr now0 f) pre).count ∧
      (CronWorld.run cfg cronExpr (Cron.Stop (CronWorld.run cfg cronExpr
        (Dispatcher.CronFunc (NewDispatcher l) cronExpr now0 f) pre)) post).AllDead) ∧
    (∀ (i : Nat) (ch : Chan Nat) (now : Time),
      (CronWorld.run cfg cronExpr
        (Dispatcher.CronFunc (NewDispatcher l) cronExpr now0 f) pre).ChanTimer.recv =
          .value i ch →
      ((CronWorld.run cfg cronExpr
        (Dispatcher.CronFunc (NewDispatcher l) cronExpr now0 f) pre).timers i).cb ≠ none →
      (CronWorld.step cfg cronExpr (CronWorld.run cfg cronExpr
        (Dispatcher.CronFunc (NewDispatcher l) cronExpr now0 f) pre) (.deliver now true)).trace =
        (CronWorld.run cfg cronExpr
          (Dispatcher.CronFunc (NewDispatcher l) cronExpr now0 f) pre).trace ++
          Ev.ran f :: recoverLog cfg f ∧
      (CronWorld.step cfg cronExpr (CronWorld.run cfg cronExpr
        (Dispatcher.CronFunc (NewDispatcher l) cronExpr now0 f) pre)
        (.deliver now true)).AllDead ∧
      (CronWorld.run cfg cronExpr (CronWorld.step cfg cronExpr (CronWorld.run cfg cronExpr
        (Dispatcher.CronFunc (NewDispatcher l) cronExpr now0 f) pre) (.deliver now true))
        post).trace =
        (CronWorld.run cfg cronExpr
          (Dispatcher.CronFunc (NewDispatcher l) cronExpr now0 f) pre).trace ++
          Ev.ran f :: recoverLog cfg f ∧
      (CronWorld.run cfg cronExpr (CronWorld.step cfg cronExpr (CronWorld.run cfg cronExpr
        (Dispatcher.CronFunc (NewDispatcher l) cronExpr now0 f) pre) (.deliver now true))
        post).count =
        (CronWorld.step cfg cronExpr (CronWorld.run cfg cronExpr
          (Dispatcher.CronFunc (NewDispatcher l) cronExpr now0 f) pre)
          (.deliver now true)).count ∧
      (CronWorld.run cfg cronExpr (CronWorld.step cfg cronExpr (CronWorld.run cfg cronExpr
        (Dispatcher.CronFunc (NewDispatcher l) cronExpr now0 f) pre) (.deliver now true))
        post).AllDead) := by
  have hinv := CronWorld.run_keeps_inv cfg cronExpr f pre _
    (Dispatcher.CronFunc_inv l cronExpr now0 f)
  refine ⟨?_, ?_, ?_⟩
  · intro i ht
    by_contra hne
    have := (hinv.1 i hne).1
    rw [ht] at this
    cases this
  · obtain ⟨hd, htr, hcount⟩ := Cron.Stop_allDead f _ hinv
    obtain ⟨h1, h2, h3⟩ := CronWorld.run_allDead cfg cronExpr post _ hd
    exact ⟨hd, h2.trans htr, h3.trans hcount, h1⟩
  · intro i ch now hrecv hcb
    obtain ⟨htr, _, _, hstop⟩ :=
      CronWorld.deliver_live cfg cronExpr f _ i ch now true hinv hrecv hcb
    obtain ⟨h1, h2, h3⟩ := CronWorld.run_allDead cfg cronExpr post _ (hstop rfl)
    exact ⟨htr, hstop rfl, h2.trans htr, h3, h1⟩

theorem cron_cancellation_witness :
    (CronWorld.run Demo.cfg Demo.untilTen
        (Dispatcher.CronFunc (NewDispatcher 1) Demo.untilTen 0 Demo.work1)
        [.fire 0, .deliver 1 false, .fire 1]).trace = [.ran Demo.work1] ∧
    (CronWorld.run Demo.cfg Demo.untilTen (Cron.Stop (CronWorld.run Demo.cfg Demo.untilTen
        (Dispatcher.CronFunc (NewDispatcher 1) Demo.untilTen 0 Demo.work1)
        [.fire 0, .deliver 1 false, .fire 1])) [.deliver 2 false, .fire 1, .fire 2]).trace =
      (CronWorld.run Demo.cfg Demo.untilTen
        (Dispatcher.CronFunc (NewDispatcher 1) Demo.untilTen 0 Demo.work1)
        [.fire 0, .deliver 1 false, .fire 1]).trace :=
  ⟨by decide,
   (cron_cancellation Demo.cfg Demo.untilTen 1 0 Demo.work1
     [.fire 0, .deliver 1 false, .fire 1] [.deliver 2 false, .fire 1, .fire 2]).2.1.2.1⟩

/-! ### one Client and its Server -/

theorem execCb_frame (cfg : Conf) (w : World κ) (ri : RetInfo κ) :
    (execCb cfg w ri).srv = w.srv ∧ (execCb cfg w ri).chans = w.chans := by
  unfold execCb
  split
  · split <;> simp [World.emit, logFault]
  · split <;> simp [World.emit, logFault]
  · split
    · simp [World.emit, logFault]
    · split <;> simp [World.emit, logFault]
  · simp [World.emit, logFault]

theorem Server.Exec_spec (cfg : Conf) (w : World κ) (ci : CallInfo κ) :
    (ci.chanRet = none →
      ∃ w', Server.Exec cfg w ci = .returned w' () ∧ w'.chans = w.chans ∧ w'.srv = w.srv) ∧
    (∀ c, ci.chanRet = some c → (w.chans c).closed = false →
      (w.chans c).buf.length < (w.chans c).cap →
      ∃ w' ri, Server.Exec cfg w ci = .returned w' () ∧ w'.srv = w.srv ∧
        w'.chans = (w.setChan c { w.chans c with buf := (w.chans c).buf ++ [ri] }).chans ∧
        ri.cb = ci.cb) := by
  obtain ⟨f, args, chanRet, cb⟩ := ci
  constructor
  · intro h
    simp only at h
    subst h
    cases f with
    | f0 body =>
      cases hb : body args <;>
        simp [Server.Exec, Server.exec, Server.execRecover, Server.ret, hb, World.emit]
    | f1 body =>
      cases hb : body args <;>
        simp [Server.Exec, Server.exec, Server.execRecover, Server.ret, hb, World.emit]
    | fN body =>
      cases hb : body args <;>
        simp [Server.Exec, Server.exec, Server.execRecover, Server.ret, hb, World.emit]
  · intro c h hopen hroom
    simp only at h
    subst h
    have key : ∀ (f : Fn) (ri : RetInfo κ), ri.cb = none →
        Server.ret (w.emit (.call f args))
          { f := f, args := args, chanRet := some c, cb := cb } ri =
        .returned ((w.emit (.call f args)).setChan c
          { w.chans c with buf := (w.chans c).buf ++ [{ ri with cb := cb }] }) none := by
      intro f ri _
      simp [Server.ret, World.emit, Chan.send, hopen, hroom]
    cases f with
    | f0 body =>
      cases hb : body args with
      | ok v =>
        refine ⟨(w.emit (.call (.f0 body) args)).setChan c
          { w.chans c with buf := (w.chans c).buf ++ [{ ret := .nil, err := none, cb := cb }] },
          { ret := .nil, err := none, cb := cb }, ?_, rfl, rfl, rfl⟩
        simp only [Server.Exec, Server.exec, hb]
        rw [key _ _ rfl]
      | error r =>
        refine ⟨((w.emit (.call (.f0 body) args)).setChan c
          { w.chans c with buf := (w.chans c).buf ++
            [{ ret := .nil, err := some (.fault r), cb := cb }] }).emit
          (.logError (if cfg.LenStackBuf > 0 then .faultStack r cfg.stack else .fault r)),
          { ret := .nil, err := some (.fault r), cb := cb }, ?_, rfl, rfl, rfl⟩
        simp only [Server.Exec, Server.exec, Server.execRecover, hb]
        rw [key _ _ rfl]
    | f1 body =>
      cases hb : body args with
      | ok v =>
        refine ⟨(w.emit (.call (.f1 body) args)).setChan c
          { w.chans c with buf := (w.chans c).buf ++ [{ ret := v, err := none, cb := cb }] },
          { ret := v, err := none, cb := cb }, ?_, rfl, rfl, rfl⟩
        simp only [Server.Exec, Server.exec, hb]
        rw [key _ _ rfl]
      | error r =>
        refine ⟨((w.emit (.call (.f1 body) args)).setChan c
          { w.chans c with buf := (w.chans c).buf ++
            [{ ret := .nil, err := some (.fault r), cb := cb }] }).emit
          (.logError (if cfg.LenStackBuf > 0 then .faultStack r cfg.stack else .fault r)),
          { ret := .nil, err := some (.fault r), cb := cb }, ?_, rfl, rfl, rfl⟩
        simp only [Server.Exec, Server.exec, Server.execRecover, hb]
        rw [key _ _ rfl]
    | fN body =>
      cases hb : body args with
      | ok v =>
        refine ⟨(w.emit (.call (.fN body) args)).setChan c
          { w.chans c with buf := (w.chans c).buf ++ [{ ret := .slice v, err := none, cb := cb }] },
          { ret := .slice v, err := none, cb := cb }, ?_, rfl, rfl, rfl⟩
        simp only [Server.Exec, Server.exec, hb]
        rw [key _ _ rfl]
      | error r =>
        refine ⟨((w.emit (.call (.fN body) args)).setChan c
          { w.chans c with buf := (w.chans c).buf ++
            [{ ret := .nil, err := some (.fault r), cb := cb }] }).emit
          (.logError (if cfg.LenStackBuf > 0 then .faultStack r cfg.stack else .fault r)),
          { ret := .nil, err := some (.fault r), cb := cb }, ?_, rfl, rfl, rfl⟩
        simp only [Server.Exec, Server.exec, Server.execRecover, hb]
        rw [key _ _ rfl]

theorem execCb_receiver (cfg : Conf) (w : World κ) (ri : RetInfo κ) :
    (execCb cfg w ri).receiver = w.receiver := by
  unfold execCb
  split
  · split <;> simp [World.emit, logFault]
  · split <;> simp [World.emit, logFault]
  · split
    · simp [World.emit, logFault]
    · split <;> simp [World.emit, logFault]
  · simp [World.emit, logFault]

theorem Server.ret_receiver (w : World κ) (ci : CallInfo κ) (ri : RetInfo κ) :
    (Server.ret w ci ri).state.receiver = w.receiver := by
  unfold Server.ret
  split
  · rfl
  · split <;> rfl

theorem Server.execRecover_receiver (cfg : Conf) (w : World κ) (ci : CallInfo κ) (r : String) :
    (Server.execRecover cfg w ci r).state.receiver = w.receiver := by
  have h := Server.ret_receiver w ci { ret := .nil, err := some (.fault r), cb := none }
  unfold Server.execRecover
  cases hr : Server.ret w ci { ret := .nil, err := some (.fault r), cb := none } <;>
    rw [hr] at h <;> exact h

theorem Server.exec_receiver (cfg : Conf) (w : World κ) (ci : CallInfo κ) :
    (Server.exec cfg w ci).state.receiver = w.receiver := by
  unfold Server.exec
  split
  · split
    · exact Server.ret_receiver _ _ _
    · exact Server.execRecover_receiver _ _ _ _
  · split
    · exact Server.ret_receiver _ _ _
    · exact Server.execRecover_receiver _ _ _ _
  · split
    · exact Server.ret_receiver _ _ _
    · exact Server.execRecover_receiver _ _ _ _

/-- Executing a request leaves the goroutine of the Server where it was. -/
theorem Server.Exec_receiver (cfg : Conf) (w : World κ) (ci : CallInfo κ) :
    (Server.Exec cfg w ci).state.receiver = w.receiver := by
  have h := Server.exec_receiver cfg w ci
  unfold Server.Exec
  cases hr : Server.exec cfg w ci with
  | returned w1 e =>
    rw [hr] at h
    cases e <;> exact h
  | blocked w1 => rw [hr] at h; exact h
  | panicked w1 p => rw [hr] at h; exact h

theorem Server.drain_receiver (reqs : List (CallInfo κ)) :
    ∀ w : World κ, (Server.drain w reqs).state.receiver = w.receiver := by
  induction reqs with
  | nil => intro w; rfl
  | cons ci rest ih =>
    intro w
    have h := Server.ret_receiver (w.setCall { w.srv.ChanCall with buf := rest }) ci
      { ret := .nil, err := some .serverClosed, cb := none }
    unfold Server.drain
    cases hr : Server.ret (w.setCall { w.srv.ChanCall with buf := rest }) ci
        { ret := .nil, err := some .serverClosed, cb := none } with
    | returned w1 e =>
      rw [hr] at h
      simp only [hr]
      rw [ih w1]
      exact h
    | blocked w1 => rw [hr] at h; simp only [hr]; exact h
    | panicked w1 p => rw [hr] at h; simp only [hr]; exact h

/-- A non-blocking send finds the Server parked only while the Server holds nothing. -/
theorem World.serverParked_spec (w : World κ) (h : w.serverParked = true) :
    w.receiver.inHand = [] ∧ w.srv.ChanCall.buf = [] := by
  unfold World.serverParked at h
  cases hr : w.receiver with
  | away => rw [hr] at h; cases h
  | handed ci => rw [hr] at h; cases h
  | waiting =>
    rw [hr] at h
    simp only [Bool.and_eq_true, List.isEmpty_iff] at h
    exact ⟨rfl, h.1⟩

/-- With room in the open asynchronous-return queue, `asynCall` returns, having either
delivered one failure Result locally, put one request in the mailbox, or handed one
request to the Server parked in its receive. -/
theorem Client.asynCall_spec (w : World κ) (c : Client) (id : κ) (args : List Val)
    (cb : Callback κ) (hopen : (w.chans c.ChanAsynRet).closed = false)
    (hroom : (w.chans c.ChanAsynRet).buf.length < (w.chans c.ChanAsynRet).cap) :
    (∃ err, Client.asynCall w c id args cb cb.arity =
      .returned (w.setChan c.ChanAsynRet { w.chans c.ChanAsynRet with
        buf := (w.chans c.ChanAsynRet).buf ++
          [{ ret := .nil, err := some err, cb := some cb }] }) ()) ∨
    (∃ f, Client.asynCall w c id args cb cb.arity =
      .returned (w.setCall { w.srv.ChanCall with
        buf := w.srv.ChanCall.buf ++
          [{ f := f, args := args, chanRet := some c.ChanAsynRet, cb := some cb }] }) ()) ∨
    (∃ f, w.serverParked = true ∧ Client.asynCall w c id args cb cb.arity =
      .returned (w.setReceiver
        (.handed { f := f, args := args, chanRet := some c.ChanAsynRet, cb := some cb })) ()) := by
  have hlocal : ∀ err, Client.deliverLocal w c err cb =
      .returned (w.setChan c.ChanAsynRet { w.chans c.ChanAsynRet with
        buf := (w.chans c.ChanAsynRet).buf ++
          [{ ret := .nil, err := some err, cb := some cb }] }) () := by
    intro err
    simp [Client.deliverLocal, Chan.send, hopen, hroom]
  cases hs : c.s with
  | false =>
    exact Or.inl ⟨.serverNotAttached, by simp [Client.asynCall, Client.f, hs, hlocal]⟩
  | true =>
    cases hf : w.srv.functions id with
    | none =>
      exact Or.inl ⟨.notRegistered id, by simp [Client.asynCall, Client.f, hs, hf, hlocal]⟩
    | some f =>
      have hlook : Client.f w c id cb.arity = .found f ∨
          Client.f w c id cb.arity = .failed (some f) (.typeMismatch id) := by
        cases cb <;> cases f <;> simp [Client.f, hs, hf, Callback.arity]
      rcases hlook with hl | hl
      · by_cases hclosed : w.srv.ChanCall.closed = true
        · exact Or.inl ⟨.runtime "send on closed channel", by
            simp [Client.asynCall, hl, Client.call, hs, Chan.trySend, hclosed, hlocal]⟩
        · cases hp : w.serverParked with
          | true =>
            exact Or.inr (Or.inr ⟨f, rfl, by
              simp [Client.asynCall, hl, Client.call, hs, Chan.trySend, hclosed, hp]⟩)
          | false =>
            by_cases hmroom : w.srv.ChanCall.buf.length < w.srv.ChanCall.cap
            · exact Or.inr (Or.inl ⟨f, by
                simp [Client.asynCall, hl, Client.call, hs, Chan.trySend, hclosed, hp,
                  hmroom]⟩)
            · exact Or.inl ⟨.channelFull, by
                simp [Client.asynCall, hl, Client.call, hs, Chan.trySend, hclosed, hp, hmroom,
                  hlocal]⟩
      · exact Or.inl ⟨.typeMismatch id, by simp [Client.asynCall, hl, hlocal]⟩

/-- On an open mailbox of any capacity, none included, an asynchronous call for a
registered function of the matching shape that finds the Server parked in its receive
hands it the request. -/
theorem Client.asynCall_handoff (w : World κ) (c : Client) (id : κ) (args : List Val)
    (cb : Callback κ) (f : Fn) (hs : c.s = true)
    (hf : Client.f w c id cb.arity = .found f) (hopen : w.srv.ChanCall.closed = false)
    (hp : w.serverParked = true) :
    Client.asynCall w c id args cb cb.arity =
      .returned (w.setReceiver
        (.handed { f := f, args := args, chanRet := some c.ChanAsynRet, cb := some cb })) () := by
  simp [Client.asynCall, hf, Client.call, hs, Chan.trySend, hopen, hp]

theorem addressed_append (c : ChanId) (xs ys : List (CallInfo κ)) :
    addressed c (xs ++ ys) = addressed c xs ++ addressed c ys := by
  simp [addressed]

theorem addressed_eq_nil (c : ChanId) (reqs : List (CallInfo κ))
    (h : ∀ ci ∈ reqs, ci.chanRet ≠ some c) : addressed c reqs = [] := by
  simp only [addressed, List.filter_eq_nil_iff, decide_eq_true_eq]
  exact h

/-- The Server executes the oldest request it holds: the execution returns and the
invariant is kept.  `w1` is the state with that request taken out. -/
theorem Client.exec_inv (cfg : Conf) (l : Nat) (w1 : World κ) (c : Client) (ci : CallInfo κ)
    (h : AsynOK l c.ChanAsynRet (w1.chans c.ChanAsynRet) w1.srv.ChanCall.sendq
      (ci :: w1.held) c.pendingAsynCall) :
    ∃ w', Server.Exec cfg w1 ci = .returned w' () ∧ Client.AsynInv l (w', c) := by
  obtain ⟨hcap, hopen, hsq, hmsq, hreqs, hpend, hle⟩ := h
  have hci := hreqs ci (List.mem_cons_self _ _)
  have hrest : ∀ x ∈ w1.held, x.chanRet = none ∨ x.chanRet = some c.ChanAsynRet :=
    fun x hx => hreqs x (List.mem_cons_of_mem _ hx)
  have hrecv := Server.Exec_receiver cfg w1 ci
  rcases hci with hnone | hsome
  · obtain ⟨w', he, hch, hsrv⟩ := (Server.Exec_spec cfg w1 ci).1 hnone
    rw [he] at hrecv
    have hrecv' : w'.receiver = w1.receiver := hrecv
    refine ⟨w', he, ?_⟩
    simp only [Client.AsynInv, World.held, hch, hsrv, hrecv']
    refine ⟨hcap, hopen, hsq, hmsq, hrest, ?_, hle⟩
    rw [hpend, addressed_cons_ne _ _ _ (by rw [hnone]; simp)]
    rfl
  · have hadd := addressed_cons_eq c.ChanAsynRet ci w1.held hsome
    have hroom : (w1.chans c.ChanAsynRet).buf.length < (w1.chans c.ChanAsynRet).cap := by
      rw [hpend, hadd, hcap.symm] at hle
      simp only [List.length_cons] at hle
      omega
    obtain ⟨w', ri, he, hsrv, hch, _⟩ :=
      (Server.Exec_spec cfg w1 ci).2 c.ChanAsynRet hsome hopen hroom
    rw [he] at hrecv
    have hrecv' : w'.receiver = w1.receiver := hrecv
    refine ⟨w', he, ?_⟩
    simp only [Client.AsynInv, World.held, hch, hsrv, hrecv', World.setChan,
      eq_self_iff_true, if_true]
    refine ⟨hcap, hopen, hsq, hmsq, hrest, ?_, hle⟩
    rw [hpend, hadd]
    simp only [List.length_append, List.length_singleton, List.length_cons,
      List.length_nil, World.held]
    push_cast
    omega

theorem Client.asynStep_inv (cfg : Conf) (l : Nat) (s : World κ × Client) (st : AsynStep κ)
    (h : Client.AsynInv l s) :
    Client.AsynInv l (Client.asynStep cfg s st).state ∧
    (Client.asynStep cfg s st).state.2.ChanAsynRet = s.2.ChanAsynRet ∧
    (∀ s', Client.asynStep cfg s st ≠ .blocked s') ∧
    (∀ id args cb, st = .asynCall id args cb → s.2.pendingAsynCall < (l : Int) →
      ∃ s', Client.asynStep cfg s st = .returned s' () ∧
        s'.2.pendingAsynCall = s.2.pendingAsynCall + 1 ∧
        Client.backlog s' = Client.backlog s + 1) := by
  obtain ⟨w, c⟩ := s
  have h0 := h
  obtain ⟨hcap, hopen, hsq, hmsq, hreqs, hpend, hle⟩ := h
  simp only at hcap hopen hsq hmsq hreqs hpend hle
  cases st with
  | asynCall id args cb =>
    by_cases hfull : c.pendingAsynCall ≥ ((w.chans c.ChanAsynRet).cap : Int)
    · have hstep : Client.asynStep cfg (w, c) (.asynCall id args cb) =
          .returned (execCb cfg w { ret := .nil, err := some .tooManyCalls, cb := some cb }, c)
            () := by
        simp [Client.asynStep, Client.AsynCall, hfull]
      obtain ⟨e1, e2⟩ := execCb_frame cfg w
        { ret := .nil, err := some .tooManyCalls, cb := some cb }
      have e3 := execCb_receiver cfg w
        { ret := .nil, err := some .tooManyCalls, cb := some cb }
      rw [hstep]
      refine ⟨?_, rfl, (fun s' h => by cases h), ?_⟩
      · simp only [Outcome.state, Client.AsynInv, World.held, e1, e2, e3]
        exact ⟨hcap, hopen, hsq, hmsq, hreqs, hpend, hle⟩
      · intro id' args' cb' _ hlt
        rw [hcap] at hfull
        simp only at hlt
        omega
    · have hlt : c.pendingAsynCall < ((w.chans c.ChanAsynRet).cap : Int) := by omega
      have hroom : (w.chans c.ChanAsynRet).buf.length < (w.chans c.ChanAsynRet).cap := by
        rw [hpend] at hlt
        omega
      rcases Client.asynCall_spec w c id args cb hopen hroom with
        ⟨err, he⟩ | ⟨f, he⟩ | ⟨f, hp, he⟩
      · have hstep : Client.asynStep cfg (w, c) (.asynCall id args cb) =
            .returned (w.setChan c.ChanAsynRet { w.chans c.ChanAsynRet with
              buf := (w.chans c.ChanAsynRet).buf ++
                [{ ret := .nil, err := some err, cb := some cb }] },
              { c with pendingAsynCall := c.pendingAsynCall + 1 }) () := by
          simp [Client.asynStep, Client.AsynCall, hfull, he]
        rw [hstep]
        have hinv : AsynOK l c.ChanAsynRet ({ w.chans c.ChanAsynRet with
              buf := (w.chans c.ChanAsynRet).buf ++
                [{ ret := .nil, err := some err, cb := some cb }] }) w.srv.ChanCall.sendq
              w.held (c.pendingAsynCall + 1) := by
          refine ⟨hcap, hopen, hsq, hmsq, hreqs, ?_, ?_⟩
          · simp only [List.length_append, List.length_singleton]
            rw [hpend]
            push_cast
            omega
          · rw [hcap] at hlt
            omega
        refine ⟨?_, rfl, (fun s' h => by cases h), ?_⟩
        · simpa [Outcome.state, Client.AsynInv, World.setChan, World.held] using hinv
        · intro id' args' cb' _ _
          refine ⟨_, rfl, rfl, ?_⟩
          simp [Client.backlog, World.setChan, World.held]
          omega
      · have hstep : Client.asynStep cfg (w, c) (.asynCall id args cb) =
            .returned (w.setCall { w.srv.ChanCall with
              buf := w.srv.ChanCall.buf ++
                [{ f := f, args := args, chanRet := some c.ChanAsynRet, cb := some cb }] },
              { c with pendingAsynCall := c.pendingAsynCall + 1 }) () := by
          simp [Client.asynStep, Client.AsynCall, hfull, he]
        rw [hstep]
        have hadd : addressed c.ChanAsynRet
            (w.receiver.inHand ++ (w.srv.ChanCall.buf ++
              [({ f := f, args := args, chanRet := some c.ChanAsynRet, cb := some cb } :
                CallInfo κ)])) =
            addressed c.ChanAsynRet w.held ++
              [{ f := f, args := args, chanRet := some c.ChanAsynRet, cb := some cb }] := by
          rw [← List.append_assoc, addressed_append]
          simp [addressed, World.held]
        have hinv : AsynOK l c.ChanAsynRet (w.chans c.ChanAsynRet) w.srv.ChanCall.sendq
              (w.receiver.inHand ++ (w.srv.ChanCall.buf ++
                [{ f := f, args := args, chanRet := some c.ChanAsynRet, cb := some cb }]))
              (c.pendingAsynCall + 1) := by
          refine ⟨hcap, hopen, hsq, hmsq, ?_, ?_, ?_⟩
          · intro ci hci
            rw [← List.append_assoc] at hci
            simp only [List.mem_append, List.mem_singleton] at hci
            rcases hci with hci | hci
            · exact hreqs ci (List.mem_append.mpr hci)
            · subst hci
              exact Or.inr rfl
          · simp only [hadd, List.length_append, List.length_singleton]
            rw [hpend]
            push_cast
            omega
          · rw [hcap] at hlt
            omega
        refine ⟨?_, rfl, (fun s' h => by cases h), ?_⟩
        · simpa [Outcome.state, Client.AsynInv, World.setCall, World.held] using hinv
        · intro id' args' cb' _ _
          refine ⟨_, rfl, rfl, ?_⟩
          simp only [Client.backlog, World.setCall, World.held, hadd, List.length_append,
            List.length_singleton]
          omega
      · obtain ⟨hin, hbuf⟩ := World.serverParked_spec w hp
        have hheld : w.held = [] := by rw [World.held, hin, hbuf]; rfl
        have hstep : Client.asynStep cfg (w, c) (.asynCall id args cb) =
            .returned (w.setReceiver
              (.handed { f := f, args := args, chanRet := some c.ChanAsynRet, cb := some cb }),
              { c with pendingAsynCall := c.pendingAsynCall + 1 }) () := by
          simp [Client.asynStep, Client.AsynCall, hfull, he]
        rw [hstep]
        have hheld' : (w.setReceiver (.handed
            { f := f, args := args, chanRet := some c.ChanAsynRet, cb := some cb })).held =
            [{ f := f, args := args, chanRet := some c.ChanAsynRet, cb := some cb }] := by
          simp [World.held, World.setReceiver, Receiver.inHand, hbuf]
        rw [hheld] at hpend
        refine ⟨?_, rfl, (fun s' h => by cases h), ?_⟩
        · simp only [Outcome.state, Client.AsynInv, hheld']
          refine ⟨hcap, hopen, hsq, hmsq, ?_, ?_, ?_⟩
          · intro ci hci
            rw [List.mem_singleton] at hci
            subst hci
            exact Or.inr rfl
          · simp only [World.setReceiver]
            rw [hpend]
            simp [addressed]
          · rw [hcap] at hlt
            omega
        · intro id' args' cb' _ _
          refine ⟨_, rfl, rfl, ?_⟩
          simp only [Client.backlog, hheld', hheld]
          simp [addressed, World.setReceiver]
  | serve =>
    by_cases hh : ∃ ci, w.receiver = .handed ci
    · obtain ⟨ci, hr⟩ := hh
      have hheld : w.held = ci :: (w.setReceiver .away).held := by
        simp [World.held, World.setReceiver, hr, Receiver.inHand]
      obtain ⟨w', he, hinv⟩ := Client.exec_inv cfg l (w.setReceiver .away) c ci (by
        rw [← hheld]
        exact h0)
      have hstep : Client.asynStep cfg (w, c) .serve = .returned (w', c) () := by
        simp only [Client.asynStep, hr, he, Outcome.withClient]
      rw [hstep]
      exact ⟨hinv, rfl, (fun s' h => by cases h), (fun _ _ _ h => nomatch h)⟩
    · have hin : w.receiver.inHand = [] := by
        cases hr : w.receiver with
        | handed ci => exact absurd ⟨ci, hr⟩ hh
        | away => rfl
        | waiting => rfl
      have hheld0 : w.held = w.srv.ChanCall.buf := by rw [World.held, hin]; rfl
      have hstepEq : Client.asynStep cfg (w, c) .serve =
          (match w.srv.ChanCall.recv with
          | .value ci ch =>
            (Server.Exec cfg ((w.setCall ch).setReceiver .away) ci).withClient c
          | .empty => .returned (w.setReceiver .waiting, c) ()
          | .closed => .returned (w, c) ()) := by
        cases hr : w.receiver with
        | handed ci => exact absurd ⟨ci, hr⟩ hh
        | away => simp only [Client.asynStep, hr]
        | waiting => simp only [Client.asynStep, hr]
      cases hbuf : w.srv.ChanCall.buf with
      | nil =>
        cases hcl : w.srv.ChanCall.closed with
        | true =>
          have hstep : Client.asynStep cfg (w, c) .serve = .returned (w, c) () := by
            rw [hstepEq]
            simp [Chan.recv, hbuf, hmsq, hcl]
          rw [hstep]
          exact ⟨h0, rfl, (fun s' h => by cases h), (fun _ _ _ h => nomatch h)⟩
        | false =>
          have hstep : Client.asynStep cfg (w, c) .serve =
              .returned (w.setReceiver .waiting, c) () := by
            rw [hstepEq]
            simp [Chan.recv, hbuf, hmsq, hcl]
          rw [hstep]
          refine ⟨?_, rfl, (fun s' h => by cases h), (fun _ _ _ h => nomatch h)⟩
          have hheld1 : (w.setReceiver .waiting).held = w.held := by
            rw [hheld0]
            rfl
          simp only [Outcome.state, Client.AsynInv, hheld1]
          exact ⟨hcap, hopen, hsq, hmsq, hreqs, hpend, hle⟩
      | cons ci rest =>
        have hrecv : w.srv.ChanCall.recv = .value ci { w.srv.ChanCall with buf := rest } := by
          simp only [Chan.recv, hbuf, hmsq]
        have hheld : w.held =
            ci :: ((w.setCall { w.srv.ChanCall with buf := rest }).setReceiver .away).held := by
          rw [hheld0, hbuf]
          rfl
        obtain ⟨w', he, hinv⟩ := Client.exec_inv cfg l
          ((w.setCall { w.srv.ChanCall with buf := rest }).setReceiver .away) c ci (by
            rw [← hheld]
            exact h0)
        have hstep : Client.asynStep cfg (w, c) .serve = .returned (w', c) () := by
          rw [hstepEq]
          simp only [hrecv, he, Outcome.withClient]
        rw [hstep]
        exact ⟨hinv, rfl, (fun s' h => by cases h), (fun _ _ _ h => nomatch h)⟩
  | close =>
    by_cases hclosed : w.srv.ChanCall.closed = true
    · have hstep : Client.asynStep cfg (w, c) .close =
          .panicked (w, c) "close of closed channel" := by
        simp [Client.asynStep, Server.Close, Chan.close, hclosed, Outcome.withClient]
      rw [hstep]
      exact ⟨h0, rfl, (fun s' h => by cases h), (fun _ _ _ h => nomatch h)⟩
    · have hsplit : (addressed c.ChanAsynRet w.held).length =
          (addressed c.ChanAsynRet w.receiver.inHand).length +
            (addressed c.ChanAsynRet w.srv.ChanCall.buf).length := by
        rw [World.held, addressed_append, List.length_append]
      have hroom : ∀ c', addressed c' w.srv.ChanCall.buf ≠ [] →
          (w.chans c').closed = false ∧
          (w.chans c').buf.length + (addressed c' w.srv.ChanCall.buf).length ≤
            (w.chans c').cap := by
        intro c' hne
        have hc' : c' = c.ChanAsynRet := by
          by_contra hcc
          apply hne
          apply addressed_eq_nil
          intro ci hci
          rcases hreqs ci (List.mem_append_right _ hci) with h | h
          · rw [h]
            simp
          · rw [h]
            intro e
            exact hcc (Option.some.inj e).symm
        subst hc'
        refine ⟨hopen, ?_⟩
        rw [hpend, hcap.symm] at hle
        omega
      obtain ⟨w', hd, hsrv, _, hch⟩ := Server.drain_spec w.srv.ChanCall.buf
        (w.setCall { w.srv.ChanCall with closed := true, sendq := [] }) rfl
        (by simpa [World.setCall] using hroom)
      have hrecv := Server.drain_receiver w.srv.ChanCall.buf
        (w.setCall { w.srv.ChanCall with closed := true, sendq := [] })
      rw [hd] at hrecv
      have hrecv' : w'.receiver = w.receiver := hrecv
      have hstep : Client.asynStep cfg (w, c) .close = .returned (w', c) () := by
        simp only [Client.asynStep, Server.Close, Chan.close, hclosed]
        simp only [World.setCall] at hd ⊢
        simp [hd, Outcome.withClient]
      rw [hstep]
      refine ⟨?_, rfl, (fun s' h => by cases h), (fun _ _ _ h => nomatch h)⟩
      simp only [Outcome.state, Client.AsynInv, World.held, hch, hsrv, hrecv', World.setCall]
      refine ⟨hcap, hopen, hsq, rfl, ?_, ?_, hle⟩
      · intro ci hci
        rw [List.append_nil] at hci
        exact hreqs ci (List.mem_append_left _ hci)
      · rw [hpend, hsplit]
        simp [addressed]
        omega
  | cb =>
    cases hbuf : (w.chans c.ChanAsynRet).buf with
    | nil =>
      have hstep : Client.asynStep cfg (w, c) .cb = .returned (w, c) () := by
        simp [Client.asynStep, Chan.recv, hbuf, hsq, hopen]
      rw [hstep]
      exact ⟨h0, rfl, (fun s' h => by cases h), (fun _ _ _ h => nomatch h)⟩
    | cons ri rest =>
      have hrecv : (w.chans c.ChanAsynRet).recv =
          .value ri { w.chans c.ChanAsynRet with buf := rest } := by
        simp only [Chan.recv, hbuf, hsq]
      have hstep : Client.asynStep cfg (w, c) .cb =
          .returned (Client.Cb cfg (w.setChan c.ChanAsynRet
            { w.chans c.ChanAsynRet with buf := rest }) c ri) () := by
        simp only [Client.asynStep, hrecv]
      obtain ⟨e1, e2⟩ := execCb_frame cfg (w.setChan c.ChanAsynRet
        { w.chans c.ChanAsynRet with buf := rest }) ri
      have e3 := execCb_receiver cfg (w.setChan c.ChanAsynRet
        { w.chans c.ChanAsynRet with buf := rest }) ri
      rw [hstep]
      refine ⟨?_, rfl, (fun s' h => by cases h), (fun _ _ _ h => nomatch h)⟩
      simp only [Outcome.state, Client.AsynInv, Client.Cb, World.held, e1, e2, e3]
      simp only [World.setChan, eq_self_iff_true, if_true]
      refine ⟨hcap, hopen, hsq, hmsq, hreqs, ?_, by omega⟩
      rw [hpend, hbuf]
      simp only [List.length_cons, World.held]
      push_cast
      omega

theorem Client.asynRun_inv (cfg : Conf) (l : Nat) (steps : List (AsynStep κ)) :
    ∀ s : World κ × Client, Client.AsynInv l s →
      Client.AsynInv l (Client.asynRun cfg s steps) ∧
      (Client.asynRun cfg s steps).2.ChanAsynRet = s.2.ChanAsynRet := by
  induction steps with
  | nil => intro s h; exact ⟨h, rfl⟩
  | cons st rest ih =>
    intro s h
    obtain ⟨h1, h2, _, _⟩ := Client.asynStep_inv cfg l s st h
    obtain ⟨h3, h4⟩ := ih _ h1
    simp only [Client.asynRun, List.foldl_cons] at h3 h4 ⊢
    exact ⟨h3, h4.trans h2⟩

theorem Server.Open_inv (w0 : World κ) (sync asyn : ChanId) (l : Nat)
    (hq : w0.srv.ChanCall.sendq = [])
    (hfresh : ∀ ci ∈ w0.held, ci.chanRet = none) :
    Client.AsynInv l (Server.Open w0 sync asyn l) := by
  have hadd : addressed asyn w0.held = [] := by
    apply addressed_eq_nil
    intro ci hci
    rw [hfresh ci hci]
    simp
  have hheld : (Server.Open w0 sync asyn l).1.held = w0.held := rfl
  simp only [Client.AsynInv, hheld]
  simp only [Server.Open, NewClient, Client.Attach, World.setChan,
    eq_self_iff_true, if_true, Chan.make]
  refine ⟨rfl, rfl, rfl, hq, fun ci hci => Or.inl (hfresh ci hci), ?_, ?_⟩
  · simp [hadd]
  · simp

/-- C13. Bounded asynchronous backlog.  Take a Server that holds only
fire-and-forget requests (in its mailbox, of any capacity including none, or handed
to its receive), with no parked sender, open a Client with an asynchronous-return
queue of capacity `l`, and let asynchronous calls, steps of the Server (executing the
request it holds, or parking in the receive on the empty mailbox, where the next
non-blocking send hands it the request), `Close` of the Server and `Cb` on Results
pulled from the queue follow in any order.  In the state reached the in-flight count
is between 0 and the capacity `l` of the queue and equals the number of Results
waiting in the queue plus the number of the Client's requests held by the Server;
while a request of the Client is held the queue has room; no step is ever blocked in
a send; and an asynchronous call made while the count is below `l` returns with the
count and the number of Results owed both raised by exactly one. -/
theorem asyn_backlog_bounded (cfg : Conf) (w0 : World κ) (sync asyn : ChanId) (l : Nat)
    (steps : List (AsynStep κ))
    (hq : w0.srv.ChanCall.sendq = [])
    (hfresh : ∀ ci ∈ w0.held, ci.chanRet = none) :
    let s := Client.asynRun cfg (Server.Open w0 sync asyn l) steps
    0 ≤ s.2.pendingAsynCall ∧
    s.2.pendingAsynCall ≤ ((s.1.chans s.2.ChanAsynRet).cap : Int) ∧
    (s.1.chans s.2.ChanAsynRet).cap = l ∧
    s.2.pendingAsynCall = (Client.backlog s : Int) ∧
    (0 < (addressed s.2.ChanAsynRet s.1.held).length →
      (s.1.chans s.2.ChanAsynRet).buf.length < (s.1.chans s.2.ChanAsynRet).cap) ∧
    (∀ st s', Client.asynStep cfg s st ≠ .blocked s') ∧
    (∀ id args cb, s.2.pendingAsynCall < ((s.1.chans s.2.ChanAsynRet).cap : Int) →
      ∃ s', Client.asynStep cfg s (.asynCall id args cb) = .returned s' () ∧
        s'.2.pendingAsynCall = s.2.pendingAsynCall + 1 ∧
        Client.backlog s' = Client.backlog s + 1) := by
  intro s
  obtain ⟨hinv, _⟩ := Client.asynRun_inv cfg l steps _ (Server.Open_inv w0 sync asyn l hq hfresh)
  have hinv' : Client.AsynInv l s := hinv
  obtain ⟨hcap, _, _, _, _, hpend, hle⟩ := hinv
  have hpend' : s.2.pendingAsynCall = (Client.backlog s : Int) := hpend
  refine ⟨?_, ?_, hcap, hpend', ?_, ?_, ?_⟩
  · rw [hpend']
    exact Int.ofNat_nonneg _
  · rw [hcap]
    exact hle
  · intro hheld
    have h1 : s.2.pendingAsynCall ≤ (l : Int) := hle
    rw [hpend'] at h1
    simp only [Client.backlog] at h1
    rw [hcap]
    omega
  · intro st s'
    exact (Client.asynStep_inv cfg l s st hinv').2.2.1 s'
  · intro id args cb hlt
    rw [hcap] at hlt
    exact (Client.asynStep_inv cfg l s (.asynCall id args cb) hinv').2.2.2 id args cb rfl hlt

theorem asyn_backlog_bounded_witness :
    (Client.asynRun Demo.cfg (Server.Open Demo.world 0 1 2) Demo.asynSchedule).2.pendingAsynCall =
      (Client.backlog (Client.asynRun Demo.cfg (Server.Open Demo.world 0 1 2)
        Demo.asynSchedule) : Int) ∧
    (Client.asynRun Demo.cfg (Server.Open Demo.world 0 1 2)
      (Demo.asynSchedule.take 2)).2.pendingAsynCall = 2 ∧
    (Client.asynRun Demo.cfg (Server.Open Demo.unbuffered 0 1 2)
      Demo.handoffSchedule).2.pendingAsynCall =
      (Client.backlog (Client.asynRun Demo.cfg (Server.Open Demo.unbuffered 0 1 2)
        Demo.handoffSchedule) : Int) ∧
    (Client.asynRun Demo.cfg (Server.Open Demo.unbuffered 0 1 2)
      (Demo.handoffSchedule.take 2)).1.held.length = 1 ∧
    ((Client.asynRun Demo.cfg (Server.Open Demo.unbuffered 0 1 2)
      Demo.handoffSchedule).1.chans 1).buf.map (fun ri => ri.err.isNone) = [true] :=
  ⟨(asyn_backlog_bounded Demo.cfg Demo.world 0 1 2 Demo.asynSchedule rfl
      (fun ci h => nomatch h)).2.2.2.1,
   by decide,
   (asyn_backlog_bounded Demo.cfg Demo.unbuffered 0 1 2 Demo.handoffSchedule rfl
      (fun ci h => nomatch h)).2.2.2.1,
   by decide,
   by decide⟩

/-! ## network: theorems -/

theorem Demo.wideParser_eq :
    Demo.wideParser =
      { lenMsgLen := 4, minMsgLen := 1, maxMsgLen := 4294967295, littleEndian := false } := by
  simp [Demo.wideParser, MsgParser.SetMsgLen, MsgParser.assignLens, MsgParser.clamp,
    MsgParser.maxOfLen, NewMsgParser]

/-- With a 4-byte length field and the largest admitted `maxMsgLen`, a message of
`2 ^ 32 - 1` bytes makes the buffer size wrap to 3 and the length store panic. -/
theorem MsgParser.Write_size_wraps (payload : List Byte) (h : payload.length = 4294967295) :
    Demo.wideParser.Write [payload] = .panic "index out of range" := by
  rw [Demo.wideParser_eq]
  simp [MsgParser.Write, sumLen, h, uint32, MsgParser.putLen, putUint32BE]

/-- With the default configuration a message of `2 ^ 32 + 5` bytes is taken for one of
5 bytes: no error, and a frame with the first 5 bytes goes out. -/
theorem MsgParser.Write_sum_wraps (payload : List Byte) (h : payload.length = 4294967301) :
    NewMsgParser.Write [payload] = .wrote ([byte 0, byte 5] ++ payload.take 5) := by
  simp [MsgParser.Write, sumLen, h, uint32, uint16, NewMsgParser, MsgParser.putLen,
    putUint16BE, copyArgs, copyAt, List.replicate, byte]

/-- C15 (the code at the failing inputs).  The configuration after
`SetMsgLen(4, 0, 4294967295)` is reachable and admits a total length of `2 ^ 32 - 1`,
yet `Write` of one slice of that length panics instead of producing a frame; and under
the default configuration (lengths 1 to 4096) `Write` of one slice of `2 ^ 32 + 5`
bytes returns no error and emits a 7-byte frame announcing 5 bytes. -/
theorem write_uint32_overflow :
    Demo.wideParser.Reachable ∧
    Demo.wideParser.minMsgLen ≤ (List.replicate 4294967295 (0 : Byte)).length ∧
    (List.replicate 4294967295 (0 : Byte)).length ≤ Demo.wideParser.maxMsgLen ∧
    Demo.wideParser.Write [List.replicate 4294967295 0] = .panic "index out of range" ∧
    NewMsgParser.maxMsgLen < (List.replicate 4294967301 (0 : Byte)).length ∧
    NewMsgParser.Write [List.replicate 4294967301 0] =
      .wrote ([byte 0, byte 5] ++ (List.replicate 4294967301 (0 : Byte)).take 5) := by
  refine ⟨.setMsgLen _ 4 0 4294967295 .new (by decide) (by decide), ?_, ?_,
    MsgParser.Write_size_wraps _ (List.length_replicate _ _), ?_,
    MsgParser.Write_sum_wraps _ (List.length_replicate _ _)⟩
  · rw [List.length_replicate, Demo.wideParser_eq]
    decide
  · rw [List.length_replicate, Demo.wideParser_eq]
  · rw [List.length_replicate]
    decide

theorem sumLen_foldl (args : List (List Byte)) : ∀ acc : Nat,
    acc + totalLen args < 4294967296 →
    args.foldl (fun acc a => uint32 (acc + uint32 a.length)) acc = acc + totalLen args := by
  induction args with
  | nil => intro acc _; simp [totalLen]
  | cons a rest ih =>
    intro acc h
    simp only [totalLen, List.map_cons, List.sum_cons] at h
    have hrest : totalLen rest = (rest.map List.length).sum := rfl
    have h1 : uint32 (acc + uint32 a.length) = acc + a.length := by
      simp only [uint32]
      omega
    simp only [List.foldl_cons, h1]
    rw [ih (acc + a.length) (by rw [hrest]; omega)]
    simp only [totalLen, List.map_cons, List.sum_cons]
    omega

theorem sumLen_eq (args : List (List Byte)) (h : totalLen args < 4294967296) :
    sumLen args = totalLen args := by
  have := sumLen_foldl args 0 (by omega)
  simpa [sumLen] using this

theorem MsgParser.clamp_spec (p : MsgParser) :
    p.clamp.lenMsgLen = p.lenMsgLen ∧ p.clamp.littleEndian = p.littleEndian ∧
    p.clamp.maxMsgLen ≤ p.maxOfLen := by
  unfold MsgParser.clamp
  simp only []
  split_ifs with h1 h2 h2
  · exact ⟨rfl, rfl, Nat.le_refl _⟩
  · exact ⟨rfl, rfl, Nat.le_of_not_lt h2⟩
  · exact ⟨rfl, rfl, Nat.le_refl _⟩
  · exact ⟨rfl, rfl, Nat.le_of_not_lt h2⟩

theorem MsgParser.assignLens_len (p : MsgParser) (n : Int) (mn mx : Nat)
    (h : p.lenMsgLen = 1 ∨ p.lenMsgLen = 2 ∨ p.lenMsgLen = 4) :
    (p.assignLens n mn mx).lenMsgLen = 1 ∨ (p.assignLens n mn mx).lenMsgLen = 2 ∨
    (p.assignLens n mn mx).lenMsgLen = 4 := by
  have hlen : (p.assignLens n mn mx).lenMsgLen =
      if n = 1 ∨ n = 2 ∨ n = 4 then n.toNat else p.lenMsgLen := by
    unfold MsgParser.assignLens
    simp only []
    split_ifs <;> rfl
  rw [hlen]
  by_cases hn : n = 1 ∨ n = 2 ∨ n = 4
  · simp only [hn, if_true]
    rcases hn with h | h | h <;> subst h
    · exact Or.inl rfl
    · exact Or.inr (Or.inl rfl)
    · exact Or.inr (Or.inr rfl)
  · simp only [hn, if_false]
    exact h

theorem MsgParser.Reachable.bounds (p : MsgParser) (h : p.Reachable) :
    (p.lenMsgLen = 1 ∧ p.maxMsgLen ≤ 255) ∨ (p.lenMsgLen = 2 ∧ p.maxMsgLen ≤ 65535) ∨
    (p.lenMsgLen = 4 ∧ p.maxMsgLen ≤ 4294967295) := by
  induction h with
  | new => exact Or.inr (Or.inl ⟨rfl, by decide⟩)
  | setMsgLen p n mn mx _ _ _ ih =>
    have hp : p.lenMsgLen = 1 ∨ p.lenMsgLen = 2 ∨ p.lenMsgLen = 4 := by
      rcases ih with h | h | h
      · exact Or.inl h.1
      · exact Or.inr (Or.inl h.1)
      · exact Or.inr (Or.inr h.1)
    obtain ⟨hl, _, hm⟩ := MsgParser.clamp_spec (p.assignLens n mn mx)
    have hq := MsgParser.assignLens_len p n mn mx hp
    unfold MsgParser.SetMsgLen
    rcases hq with h | h | h
    · refine Or.inl ⟨hl.trans h, ?_⟩
      have : (p.assignLens n mn mx).maxOfLen = 255 := by
        unfold MsgParser.maxOfLen
        rw [h]
      rw [this] at hm
      exact hm
    · refine Or.inr (Or.inl ⟨hl.trans h, ?_⟩)
      have : (p.assignLens n mn mx).maxOfLen = 65535 := by
        unfold MsgParser.maxOfLen
        rw [h]
      rw [this] at hm
      exact hm
    · refine Or.inr (Or.inr ⟨hl.trans h, ?_⟩)
      have : (p.assignLens n mn mx).maxOfLen = 4294967295 := by
        unfold MsgParser.maxOfLen
        rw [h]
      rw [this] at hm
      exact hm
  | setByteOrder p b _ ih => exact ih

theorem copyAt_fill (pre a : List Byte) (t : Nat) :
    copyAt (pre ++ List.replicate (a.length + t) 0) pre.length a =
      (pre ++ a) ++ List.replicate t 0 := by
  have h1 : (pre ++ List.replicate (a.length + t) (0 : Byte)).length - pre.length =
      a.length + t := by
    simp
  have h2 : min a.length (a.length + t) = a.length := by omega
  unfold copyAt
  rw [h1, h2, List.take_left, List.take_of_length_le (by omega), List.drop_append,
    List.drop_replicate]
  simp

theorem copyArgs_fill (args : List (List Byte)) : ∀ pre : List Byte,
    copyArgs (pre ++ List.replicate (totalLen args) 0) pre.length args =
      some (pre ++ args.flatten) := by
  induction args with
  | nil =>
    intro pre
    simp [copyArgs, totalLen]
  | cons a rest ih =>
    intro pre
    have ht : totalLen (a :: rest) = a.length + totalLen rest := by
      simp [totalLen]
    have hle : pre.length ≤ (pre ++ List.replicate (a.length + totalLen rest) (0 : Byte)).length := by
      simp
    rw [ht, copyArgs, if_pos hle, copyAt_fill]
    have := ih (pre ++ a)
    rw [List.length_append] at this
    rw [this]
    simp

theorem length_flatten_eq (args : List (List Byte)) : args.flatten.length = totalLen args := by
  induction args with
  | nil => rfl
  | cons a rest ih => simp [totalLen, ih]

theorem MsgParser.header_length (p : MsgParser) (n : Nat)
    (h : p.lenMsgLen = 1 ∨ p.lenMsgLen = 2 ∨ p.lenMsgLen = 4) :
    (p.header n).length = p.lenMsgLen := by
  unfold MsgParser.header
  rcases h with h | h | h <;> rw [h] <;> cases p.littleEndian <;> rfl

theorem MsgParser.parseLen_header (p : MsgParser) (n : Nat)
    (h : (p.lenMsgLen = 1 ∧ n ≤ 255) ∨ (p.lenMsgLen = 2 ∧ n ≤ 65535) ∨
      (p.lenMsgLen = 4 ∧ n ≤ 4294967295)) :
    p.parseLen (p.header n) = n := by
  unfold MsgParser.parseLen MsgParser.header
  rcases h with ⟨h, hn⟩ | ⟨h, hn⟩ | ⟨h, hn⟩
  · rw [h]
    simp only [byteAt, List.getD_cons_zero, byte]
    omega
  · rw [h]
    cases p.littleEndian <;>
      simp [uint16BE, uint16LE, byteAt, byte] <;> omega
  · rw [h]
    cases p.littleEndian <;>
      simp [uint32BE, uint32LE, byteAt, byte] <;> omega

theorem MsgParser.putLen_replicate (p : MsgParser) (n t : Nat)
    (h : (p.lenMsgLen = 1 ∧ n ≤ 255) ∨ (p.lenMsgLen = 2 ∧ n ≤ 65535) ∨
      (p.lenMsgLen = 4 ∧ n ≤ 4294967295)) :
    p.putLen (List.replicate (p.lenMsgLen + t) 0) n =
      some (p.header n ++ List.replicate t 0) := by
  unfold MsgParser.putLen MsgParser.header
  rcases h with ⟨h, hn⟩ | ⟨h, hn⟩ | ⟨h, hn⟩
  · rw [h, Nat.add_comm]
    simp [List.replicate_succ]
  · have hu : uint16 n = n := by
      simp only [uint16]
      omega
    rw [h, Nat.add_comm, hu]
    cases p.littleEndian <;>
      simp [putUint16BE, putUint16LE, List.replicate_succ]
  · rw [h, Nat.add_comm]
    cases p.littleEndian <;>
      simp [putUint32BE, putUint32LE, List.replicate_succ]

/-- Away from the `uint32` wrap-around the framing behaves as intended: for a reachable
configuration and slices whose total length `L` lies in `[minMsgLen, maxMsgLen]` with
`lenMsgLen + L < 2 ^ 32`, `Write` emits the length in `lenMsgLen` bytes followed by the
slices in order, `lenMsgLen + L` bytes in all, and `Read` of exactly these bytes returns
the concatenation of the slices and leaves nothing unread. -/
theorem MsgParser.round_trip_below_wrap (p : MsgParser) (hp : p.Reachable)
    (args : List (List Byte)) (hmin : p.minMsgLen ≤ totalLen args)
    (hmax : totalLen args ≤ p.maxMsgLen)
    (hno : p.lenMsgLen + totalLen args < 4294967296) :
    p.Write args = .wrote (p.header (totalLen args) ++ args.flatten) ∧
    (p.header (totalLen args) ++ args.flatten).length = p.lenMsgLen + totalLen args ∧
    p.Read (p.header (totalLen args) ++ args.flatten) = .ok args.flatten [] := by
  have hb := MsgParser.Reachable.bounds p hp
  have hlen : p.lenMsgLen = 1 ∨ p.lenMsgLen = 2 ∨ p.lenMsgLen = 4 := by
    rcases hb with h | h | h
    · exact Or.inl h.1
    · exact Or.inr (Or.inl h.1)
    · exact Or.inr (Or.inr h.1)
  have hn : (p.lenMsgLen = 1 ∧ totalLen args ≤ 255) ∨
      (p.lenMsgLen = 2 ∧ totalLen args ≤ 65535) ∨
      (p.lenMsgLen = 4 ∧ totalLen args ≤ 4294967295) := by
    rcases hb with h | h | h
    · exact Or.inl ⟨h.1, Nat.le_trans hmax h.2⟩
    · exact Or.inr (Or.inl ⟨h.1, Nat.le_trans hmax h.2⟩)
    · exact Or.inr (Or.inr ⟨h.1, Nat.le_trans hmax h.2⟩)
  have hsum : sumLen args = totalLen args := sumLen_eq args (by omega)
  have hhead := MsgParser.header_length p (totalLen args) hlen
  have hsize : uint32 (uint32 p.lenMsgLen + totalLen args) = p.lenMsgLen + totalLen args := by
    simp only [uint32]
    omega
  refine ⟨?_, ?_, ?_⟩
  · have hcopy := copyArgs_fill args (p.header (totalLen args))
    rw [hhead] at hcopy
    simp only [MsgParser.Write, hsum, hsize, Nat.not_lt.mpr hmax, Nat.not_lt.mpr hmin,
      if_false, gt_iff_lt, MsgParser.putLen_replicate p _ _ hn, hcopy]
  · rw [List.length_append, hhead, length_flatten_eq]
  · have hread : readFull (p.header (totalLen args) ++ args.flatten) p.lenMsgLen =
        .ok (p.header (totalLen args), args.flatten) := by
      have hle : p.lenMsgLen ≤ (p.header (totalLen args) ++ args.flatten).length := by
        rw [List.length_append, hhead]
        omega
      rw [readFull, if_pos hle, ← hhead, List.take_left, List.drop_left]
    have hread2 : readFull args.flatten (totalLen args) = .ok (args.flatten, []) := by
      rw [readFull, if_pos (by rw [length_flatten_eq]), ← length_flatten_eq, List.take_length,
        List.drop_length]
    simp only [MsgParser.Read, hread, MsgParser.parseLen_header p _ hn, Nat.not_lt.mpr hmax,
      Nat.not_lt.mpr hmin, if_false, gt_iff_lt, hread2]

/-- Away from the wrap-around of the sum, a total length outside
`[minMsgLen, maxMsgLen]` makes `Write` return an error, nothing being emitted. -/
theorem MsgParser.Write_rejects_below_wrap (p : MsgParser) (args : List (List Byte))
    (h32 : totalLen args < 4294967296)
    (hout : totalLen args < p.minMsgLen ∨ p.maxMsgLen < totalLen args) :
    p.Write args = .error "message too long" ∨ p.Write args = .error "message too short" := by
  have hsum : sumLen args = totalLen args := sumLen_eq args h32
  by_cases hlong : totalLen args > p.maxMsgLen
  · left
    simp only [MsgParser.Write, hsum, hlong, if_true]
  · right
    have hshort : totalLen args < p.minMsgLen := by
      rcases hout with h | h
      · exact h
      · exact absurd h hlong
    simp only [MsgParser.Write, hsum, hlong, hshort, if_true, if_false]

end Leaf
